import Mathlib

/-!
Content moderation engine: Trie, term-relationship graph, moderation engine.

A shallow embedding of `src/ContentModerator.cpp` (Trie, Graph, engine) and of the
persistence routines of `src/Docker/docker-main.cpp` (`Graph::saveToFile`,
`Graph::loadFromFile`).

Conventions of the embedding.

* A C++ `char` is a Lean `Char`, a `std::string` is a `List Char` (`Str`).
* A `std::unordered_map<K, V>` is an association list `List (K × V)`; `find` is the
  first entry with the key, `operator[]` finds the entry or appends a default one.
  The iteration order of the C++ container is unspecified; the list order stands
  for one such order, and theorems over all lists cover every order.
* C++ `int` values are Lean `Int`. The frequency counters are 32-bit: the increment
  wraps around in two's complement (`wrapInt32`), as the compiled code does at
  2147483647. Traversal depths stay far below that bound.
-/

namespace ContentModerator

/-- A C++ `std::string`. -/
abbrev Str := List Char

/-! ## Trie -/

/-- The class `TrieNode`: `children`, `isEndOfWord`, `word`. -/
inductive TrieNode where
  | mk (children : List (Char × TrieNode)) (isEndOfWord : Bool) (word : Str) : TrieNode

namespace TrieNode

/-- The constructor `TrieNode()`: no children, `isEndOfWord = false`, empty `word`. -/
def new : TrieNode := .mk [] false []

def children : TrieNode → List (Char × TrieNode)
  | .mk ch _ _ => ch

def isEndOfWord : TrieNode → Bool
  | .mk _ e _ => e

def word : TrieNode → Str
  | .mk _ _ w => w

end TrieNode

/-- The lookup `m.find(k)` of an unordered map: the value of the entry with key `k`. -/
def mapFind {κ : Type} [DecidableEq κ] {α : Type} : List (κ × α) → κ → Option α
  | [], _ => none
  | (k, v) :: rest, key => if k = key then some v else mapFind rest key

/-- The assignment `m[k] = v` of an unordered map: overwrite the entry of `k`, or add one. -/
def mapSet {κ : Type} [DecidableEq κ] {α : Type} : List (κ × α) → κ → α → List (κ × α)
  | [], key, v => [(key, v)]
  | (k, x) :: rest, key, v =>
    if k = key then (k, v) :: rest else (k, x) :: mapSet rest key v

/-- The body of `insertWord` from node `current` on: for each character descend into the
child, creating it when absent; at the end set `isEndOfWord` and `word`.
`whole` is the full word stored at the final node; `rest` is what is left to walk. -/
def insertFrom (whole : Str) : Str → TrieNode → TrieNode
  | [], .mk ch _ _ => .mk ch true whole
  | c :: cs, .mk ch e w =>
    match mapFind ch c with
    | none => .mk (mapSet ch c (insertFrom whole cs TrieNode.new)) e w
    | some child => .mk (mapSet ch c (insertFrom whole cs child)) e w

/-- The function `ContentModerationSystem::insertWord`, on the Trie rooted at `root`. -/
def insertWord (root : TrieNode) (word : Str) : TrieNode :=
  insertFrom word word root

/-- The function `ContentModerationSystem::searchWord`: follow the characters; a missing
child gives `false`, otherwise the flag of the node reached. -/
def searchWord : TrieNode → Str → Bool
  | .mk _ e _, [] => e
  | .mk ch _ _, c :: cs =>
    match mapFind ch c with
    | none => false
    | some child => searchWord child cs

/-- A sequence of `insertWord` calls, left to right. -/
def insertWords (root : TrieNode) (ws : List Str) : TrieNode :=
  ws.foldl insertWord root

/-! ## Character classes of the C locale -/

/-- The function `::tolower`: the letters `A`..`Z` go to `a`..`z`, every other character is kept. -/
def tolower (c : Char) : Char :=
  if 65 ≤ c.toNat ∧ c.toNat ≤ 90 then Char.ofNat (c.toNat + 32) else c

/-- The function `std::ispunct`: the printable characters that are neither alphanumeric nor space. -/
def ispunct (c : Char) : Bool :=
  (33 ≤ c.toNat && c.toNat ≤ 47) || (58 ≤ c.toNat && c.toNat ≤ 64) ||
  (91 ≤ c.toNat && c.toNat ≤ 96) || (123 ≤ c.toNat && c.toNat ≤ 126)

/-- The function `::isspace`: space, `\t`, `\n`, `\v`, `\f`, `\r`. -/
def isspace (c : Char) : Bool :=
  c.toNat = 32 || (9 ≤ c.toNat && c.toNat ≤ 13)

/-- The successive values of `word` in `while (iss >> word)`: each extraction skips
leading whitespace and reads up to the next whitespace or the end; it fails when no
character is left. `acc` is the word being read. -/
def extractWords : Str → Str → List Str
  | [], acc => if acc.isEmpty then [] else [acc]
  | c :: cs, acc =>
    if isspace c then
      (if acc.isEmpty then extractWords cs [] else acc :: extractWords cs [])
    else extractWords cs (acc ++ [c])

/-- The successive values read by `while (std::getline(in, s, delim))`: each call reads up
to and consumes the next `delim`, or reads to the end; it fails when no character is
left. `acc` is the piece being read. -/
def getlineAll (delim : Char) : Str → Str → List Str
  | [], acc => if acc.isEmpty then [] else [acc]
  | c :: cs, acc =>
    if c = delim then acc :: getlineAll delim cs [] else getlineAll delim cs (acc ++ [c])

/-! ## Frequency table -/

/-- The member `flaggedTermsFrequency`. -/
abbrev FreqTable := List (Str × Int)

/-- The counter of a word: its entry, `0` when it has none. -/
def counter (freq : FreqTable) (w : Str) : Int :=
  (mapFind freq w).getD 0

/-- The value of a 32-bit `int` that holds the integer `n` modulo 2^32: the representative
in the range -2147483648 .. 2147483647. -/
def wrapInt32 (n : Int) : Int :=
  (n + 2147483648) % 4294967296 - 2147483648

/-- The statement `flaggedTermsFrequency[word]++` on the 32-bit counter. -/
def incrementCounter (freq : FreqTable) (word : Str) : FreqTable :=
  mapSet freq word (wrapInt32 ((mapFind freq word).getD 0 + 1))

/-- The `erase(remove_if(.., ispunct))` statement: drop the punctuation characters. -/
def removePunct (word : Str) : Str :=
  word.filter (fun c => !ispunct c)

/-- The `while (iss >> word)` loop of `searchFlaggedWords`, over the remaining tokens,
with the current `flaggedWords` and `flaggedTermsFrequency`. -/
def searchFlaggedLoop (root : TrieNode) :
    List Str → List Str × FreqTable → List Str × FreqTable
  | [], st => st
  | tok :: rest, (flaggedWords, freq) =>
    let word := removePunct tok
    if searchWord root word then
      searchFlaggedLoop root rest (flaggedWords ++ [word], incrementCounter freq word)
    else
      searchFlaggedLoop root rest (flaggedWords, freq)

/-- The function `ContentModerationSystem::searchFlaggedWords`: the returned vector and
the frequency table afterwards. -/
def searchFlaggedWords (root : TrieNode) (freq : FreqTable) (text : Str) :
    List Str × FreqTable :=
  let lowerText := text.map tolower
  searchFlaggedLoop root (extractWords lowerText []) ([], freq)

/-- The tokens of a text as the specification words them: the text lowercased, split on
whitespace, punctuation removed from each token. -/
def normalisedTokens (text : Str) : List Str :=
  (((text.map tolower).splitOnP isspace).filter (fun t => !t.isEmpty)).map removePunct

/-! ## Term-relationship graph -/

/-- The member `adjacencyList` of `Graph`. -/
abbrev Graph := List (Str × List Str)

/-- The access `m[k]` of an unordered map when only read: the entry is created with the
default value when absent. -/
def mapTouch {κ : Type} [DecidableEq κ] {α : Type} (m : List (κ × α)) (key : κ) (dflt : α) :
    List (κ × α) :=
  match mapFind m key with
  | some _ => m
  | none => m ++ [(key, dflt)]

/-- The neighbour sequence stored for a term, empty when the term has no entry. -/
def neighbours (g : Graph) (word : Str) : List Str :=
  (mapFind g word).getD []

/-- The statement `adjacencyList[word].push_back(x)`. -/
def pushBack (g : Graph) (word x : Str) : Graph :=
  mapSet g word ((mapFind g word).getD [] ++ [x])

/-- The function `Graph::addEdge`. -/
def addEdge (g : Graph) (word1 word2 : Str) : Graph :=
  pushBack (pushBack g word1 word2) word2 word1

/-- The local state of `getRelatedWords` together with the graph it reads. -/
structure BfsState where
  adjacencyList : Graph
  visited : List Str
  queue : List (Str × Int)
  relatedWords : List Str

/-- The `for (neighbor : adjacencyList[currentWord])` loop: an unvisited neighbour is
marked visited and pushed with `depth + 1`. -/
def visitNeighbours (depth : Int) :
    List Str → List Str × List (Str × Int) → List Str × List (Str × Int)
  | [], st => st
  | neighbor :: rest, (visited, queue) =>
    if neighbor ∈ visited then visitNeighbours depth rest (visited, queue)
    else visitNeighbours depth rest (neighbor :: visited, queue ++ [(neighbor, depth + 1)])

/-- One iteration of `while (!queue.empty())`. -/
def bfsStep (maxDepth : Int) (s : BfsState) : BfsState :=
  match s.queue with
  | [] => s
  | (currentWord, depth) :: rest =>
    let related := if depth > 0 then s.relatedWords ++ [currentWord] else s.relatedWords
    if depth < maxDepth then
      let g := mapTouch s.adjacencyList currentWord []
      let vq := visitNeighbours depth (neighbours g currentWord) (s.visited, rest)
      { adjacencyList := g, visited := vq.1, queue := vq.2, relatedWords := related }
    else
      { adjacencyList := s.adjacencyList, visited := s.visited, queue := rest,
        relatedWords := related }

/-- The `while` loop run for at most `fuel` tests of its condition; `none` when the fuel
runs out before the queue is empty. -/
def bfsLoop (maxDepth : Int) : Nat → BfsState → Option BfsState
  | 0, _ => none
  | fuel + 1, s =>
    if s.queue.isEmpty then some s else bfsLoop maxDepth fuel (bfsStep maxDepth s)

/-- All neighbour entries of the graph, in order. -/
def allNeighbours : Graph → List Str
  | [] => []
  | (_, ns) :: rest => ns ++ allNeighbours rest

/-- A number of loop tests that is enough for graph `g`: every term is enqueued at most
once, and an enqueued term is the start or a stored neighbour. -/
def bfsFuel (g : Graph) : Nat :=
  (allNeighbours g).length + 2

/-- The function `Graph::getRelatedWords`: the returned vector and the adjacency list afterwards. -/
def getRelatedWords (g : Graph) (startWord : Str) (maxDepth : Int) :
    Option (List Str × Graph) :=
  (bfsLoop maxDepth (bfsFuel g)
    { adjacencyList := g, visited := [startWord], queue := [(startWord, 0)],
      relatedWords := [] }).map
    (fun s => (s.relatedWords, s.adjacencyList))

/-- A walk of `n` hops along stored neighbour lists. -/
def Reach (g : Graph) : Nat → Str → Str → Prop
  | 0, a, b => a = b
  | n + 1, a, b => ∃ c, Reach g n a c ∧ b ∈ neighbours g c

/-- The invariant of the `while` loop of `getRelatedWords` on graph `g0`; `popped` lists
the (word, depth) pairs dequeued so far, in order. -/
structure BfsInv (g0 : Graph) (start : Str) (maxDepth : Int) (popped : List (Str × Int))
    (s : BfsState) : Prop where
  entries : ∀ u, mapFind s.adjacencyList u = mapFind g0 u ∨
    (mapFind g0 u = none ∧ mapFind s.adjacencyList u = some [])
  vis : ∀ w, w ∈ s.visited ↔ w ∈ (popped ++ s.queue).map Prod.fst
  nodup : ((popped ++ s.queue).map Prod.fst).Nodup
  sorted : ((popped ++ s.queue).map Prod.snd).Pairwise (fun a b => a ≤ b)
  span : ∀ p ∈ s.queue, ∀ q ∈ popped ++ s.queue, q.2 ≤ p.2 + 1
  path : ∀ p ∈ popped ++ s.queue,
    ∃ n : Nat, p.2 = (n : Int) ∧ Reach g0 n start p.1 ∧ (n = 0 ∨ (n : Int) ≤ maxDepth)
  closed : ∀ p ∈ popped, p.2 < maxDepth → ∀ n ∈ neighbours g0 p.1,
    ∃ q ∈ popped ++ s.queue, q.1 = n ∧ q.2 ≤ p.2 + 1
  start_mem : (start, 0) ∈ popped ++ s.queue
  out : s.relatedWords = (popped.filter (fun p => decide (0 < p.2))).map Prod.fst

/-- The function `Graph::visualizeConnections`: `none` for the "No connections found" line, otherwise
the neighbours listed; and the adjacency list afterwards. -/
def visualizeConnections (g : Graph) (word : Str) : Option (List Str) × Graph :=
  match mapFind g word with
  | none => (none, g)
  | some _ =>
    let g1 := mapTouch g word []
    (some (neighbours g1 word), g1)

/-! ## Graph persistence (`src/Docker/docker-main.cpp`) -/

/-- The inner loop of `saveToFile`: `"," << neighbor` for each neighbour. -/
def writeNeighbors : List Str → Str
  | [] => []
  | neighbor :: rest => ',' :: (neighbor ++ writeNeighbors rest)

/-- The function `Graph::saveToFile`, the text written when the file opens: for each entry the line
`word,neighbor1,neighbor2,...` ended by `std::endl`. -/
def saveToFile : Graph → Str
  | [] => []
  | (word, neighbors) :: rest => word ++ writeNeighbors neighbors ++ '\n' :: saveToFile rest

/-- The loop `while (std::getline(iss, neighbors, ','))` of `loadFromFile`: a non-empty
field is pushed on the list of `word`. -/
def loadFields (word : Str) : List Str → Graph → Graph
  | [], g => g
  | field :: rest, g =>
    if !field.isEmpty then loadFields word rest (pushBack g word field)
    else loadFields word rest g

/-- The body of the line loop of `loadFromFile`: the first field is the word, the
following fields its neighbours. -/
def loadLine (g : Graph) (line : Str) : Graph :=
  match getlineAll ',' line [] with
  | [] => g
  | word :: fields => loadFields word fields g

/-- The function `Graph::loadFromFile`: `file` is `none` when the file cannot be opened, otherwise its
text; a file that opens clears the adjacency list first. -/
def loadFromFile (g : Graph) (file : Option Str) : Graph :=
  match file with
  | none => g
  | some text => (getlineAll '\n' text []).foldl loadLine []

/-! ## Statistics -/

/-- The comparator of `showStatistics`: `a.second > b.second`. -/
def freqGreater (a b : Str × Int) : Bool :=
  decide (a.2 > b.2)

/-- The contract of `std::sort(first, last, comp)`: the result is a rearrangement of the
input in which no element is ordered by `comp` before an earlier one. The order of
elements that `comp` does not separate is unspecified. -/
structure StdSortContract {α : Type} (comp : α → α → Bool) (sort : List α → List α) : Prop where
  perm : ∀ l, (sort l).Perm l
  ordered : ∀ l, (sort l).Pairwise (fun a b => comp b a = false)

/-- The printing loop of `showStatistics`: print an entry, then `if (++count >= 5) break`. -/
def printTop : List (Str × Int) → Int → List (Str × Int)
  | [], _ => []
  | entry :: rest, count =>
    entry :: (if count + 1 ≥ 5 then [] else printTop rest (count + 1))

/-- The top-terms listing of `ContentModerationSystem::showStatistics`, for the sorting
routine `sort` standing for `std::sort` with the comparator `freqGreater`. -/
def showStatistics (sort : List (Str × Int) → List (Str × Int)) (freq : FreqTable) :
    List (Str × Int) :=
  printTop (sort freq) 0

/-- A sorting routine that meets the contract: insertion sort by non-increasing frequency. -/
def insertionSortByFreq (l : List (Str × Int)) : List (Str × Int) :=
  l.insertionSort (fun a b => b.2 ≤ a.2)

/-! ## Moderation engine -/

/-- The data members of `ContentModerationSystem`. -/
structure ContentModerationSystem where
  root : TrieNode
  termRelationships : Graph
  flaggedTermsFrequency : FreqTable
  flaggedContent : List (Str × List Str)

/-- The constructor `ContentModerationSystem()`. -/
def ContentModerationSystem.new : ContentModerationSystem :=
  { root := TrieNode.new, termRelationships := [], flaggedTermsFrequency := [],
    flaggedContent := [] }

/-- The body of the line loop of `loadBannedWords`: remove whitespace, and when the line
is not empty lowercase it and insert it. -/
def loadBannedLine (root : TrieNode) (line : Str) : TrieNode :=
  let stripped := line.filter (fun c => !isspace c)
  if !stripped.isEmpty then insertWord root (stripped.map tolower) else root

/-- The function `ContentModerationSystem::loadBannedWords` on the Trie: `file` is `none` when the file
cannot be opened, otherwise its text. -/
def loadBannedWords (root : TrieNode) (file : Option Str) : TrieNode :=
  match file with
  | none => root
  | some text => (getlineAll '\n' text []).foldl loadBannedLine root

/-- The function `ContentModerationSystem::addBannedWord` on the Trie. -/
def addBannedWord (root : TrieNode) (word : Str) : TrieNode :=
  insertWord root (word.map tolower)

/-- The function `ContentModerationSystem::flagContent`: the returned flag and the state afterwards. -/
def flagContent (s : ContentModerationSystem) (content : Str) :
    Bool × ContentModerationSystem :=
  let r := searchFlaggedWords s.root s.flaggedTermsFrequency content
  if !r.1.isEmpty then
    (true, { s with flaggedTermsFrequency := r.2,
                    flaggedContent := s.flaggedContent ++ [(content, r.1)] })
  else
    (false, { s with flaggedTermsFrequency := r.2 })

/-- The loop over the flagged terms in `processContent`: each term is reported with
`flaggedTermsFrequency[term]` and `getRelatedWords(term)` (default depth 2). -/
def processTerms :
    List Str → FreqTable → Graph → Option (List (Str × Int × List Str) × FreqTable × Graph)
  | [], freq, g => some ([], freq, g)
  | term :: rest, freq, g =>
    let freq1 := mapTouch freq term 0
    match getRelatedWords g term 2 with
    | none => none
    | some (related, g1) =>
      match processTerms rest freq1 g1 with
      | none => none
      | some (report, freq2, g2) => some ((term, counter freq1 term, related) :: report, freq2, g2)

/-- The function `ContentModerationSystem::processContent`: the report (`none` for the approved status,
otherwise the flagged terms with frequency and related terms) and the state afterwards. -/
def processContent (s : ContentModerationSystem) (content : Str) :
    Option (Option (List (Str × Int × List Str)) × ContentModerationSystem) :=
  let r := flagContent s content
  if r.1 then
    match r.2.flaggedContent.getLast? with
    | none => none
    | some lastFlagged =>
      match processTerms lastFlagged.2 r.2.flaggedTermsFrequency r.2.termRelationships with
      | none => none
      | some (report, freq, g) =>
        some (some report, { r.2 with flaggedTermsFrequency := freq, termRelationships := g })
  else
    some (none, r.2)

/-- The loop of `visualizeTermGraph` over the keys of the frequency table, on the graph. -/
def visualizeTermGraph : List Str → Graph → Graph
  | [], g => g
  | term :: rest, g => visualizeTermGraph rest (visualizeConnections g term).2

/-- The public operations of `ContentModerationSystem`. -/
inductive Op where
  | loadBannedWords (file : Option Str)
  | addTermRelationship (term1 term2 : Str)
  | flagContent (content : Str)
  | processContent (content : Str)
  | collectFeedback
  | visualizeTermGraph
  | addBannedWord (word : Str)
  | showStatistics

/-- The state after a public operation; `collectFeedback` and `showStatistics` only read. -/
def applyOp (s : ContentModerationSystem) : Op → Option ContentModerationSystem
  | .loadBannedWords file => some { s with root := loadBannedWords s.root file }
  | .addTermRelationship term1 term2 =>
    some { s with termRelationships := addEdge s.termRelationships term1 term2 }
  | .flagContent content => some (flagContent s content).2
  | .processContent content => (processContent s content).map Prod.snd
  | .collectFeedback => some s
  | .visualizeTermGraph =>
    some { s with termRelationships :=
      visualizeTermGraph (s.flaggedTermsFrequency.map Prod.fst) s.termRelationships }
  | .addBannedWord word => some { s with root := addBannedWord s.root word }
  | .showStatistics => some s

/-- The states reached from a freshly constructed system by public operations. -/
inductive Reachable : ContentModerationSystem → Prop where
  | fresh : Reachable ContentModerationSystem.new
  | step (s s1 : ContentModerationSystem) (op : Op) :
      Reachable s → applyOp s op = some s1 → Reachable s1

/-- The text written by `createSampleBannedWordsFile`. -/
def sampleBannedWordsFile : Str :=
  "hate\nscam\nfraud\nracism\nabuse\nviolence\nbullying\ndiscrimination\n".toList

/-- The system of `main` after loading the sample banned words. -/
def sampleSystem : ContentModerationSystem :=
  { ContentModerationSystem.new with
    root := loadBannedWords TrieNode.new (some sampleBannedWordsFile) }

/-- The graph states reached from the empty graph by `addEdge` and `getRelatedWords`
calls, in any interleaving. -/
inductive GraphReachable : Graph → Prop where
  | empty : GraphReachable []
  | edge (g : Graph) (word1 word2 : Str) :
      GraphReachable g → GraphReachable (addEdge g word1 word2)
  | related (g g1 : Graph) (startWord : Str) (maxDepth : Int) (relatedWords : List Str) :
      GraphReachable g → getRelatedWords g startWord maxDepth = some (relatedWords, g1) →
      GraphReachable g1

/-- The neighbours that the lines of a graph file list for `word`, as the specification
words the format: for each line whose first comma-separated field is `word`, its
non-empty following fields, in order. -/
def listedNeighbours (word : Str) : List Str → List Str
  | [] => []
  | line :: rest =>
    match getlineAll ',' line [] with
    | [] => listedNeighbours word rest
    | first :: fields =>
      (if first = word then fields.filter (fun f => !f.isEmpty) else []) ++
        listedNeighbours word rest

/-! ## Saving the banned words (`src/Docker/docker-main.cpp`) -/

mutual
/-- The recursive lambda `dfs` of `saveBannedWords`: the strings written from `node` on,
each by `file << prefix << std::endl`, with `pre` the accumulated path. -/
def dfs : TrieNode → Str → List Str
  | .mk children isEndOfWord _, pre =>
    (if isEndOfWord then [pre] else []) ++ dfsChildren children pre
/-- The loop of `dfs` over the children of a node: `dfs(child, prefix + ch)`. -/
def dfsChildren : List (Char × TrieNode) → Str → List Str
  | [], _ => []
  | (ch, child) :: rest, pre => dfs child (pre ++ [ch]) ++ dfsChildren rest pre
end

mutual
/-- Every node of the Trie has pairwise distinct child keys, as the `unordered_map` of
children has. -/
def uniqueKeys : TrieNode → Prop
  | .mk children _ _ => (children.map Prod.fst).Nodup ∧ uniqueKeysChildren children
/-- The children of a node all have pairwise distinct child keys throughout. -/
def uniqueKeysChildren : List (Char × TrieNode) → Prop
  | [] => True
  | (_, child) :: rest => uniqueKeys child ∧ uniqueKeysChildren rest
end

mutual
/-- At every node flagged complete, the stored `word` equals the path that leads to the
node, `pre` being the path to this node. -/
def storedWordsOk : TrieNode → Str → Prop
  | .mk children isEndOfWord word, pre =>
    (isEndOfWord = true → word = pre) ∧ storedWordsOkChildren children pre
/-- The stored words below each child agree with their paths. -/
def storedWordsOkChildren : List (Char × TrieNode) → Str → Prop
  | [], _ => True
  | (ch, child) :: rest, pre => storedWordsOk child (pre ++ [ch]) ∧ storedWordsOkChildren rest pre
end

/-! ## Instrumented traversal -/

/-- The state of `getRelatedWords` when its loop starts: the start word is marked visited
and pushed with depth 0. -/
def bfsInit (g : Graph) (startWord : Str) : BfsState :=
  { adjacencyList := g, visited := [startWord], queue := [(startWord, 0)],
    relatedWords := [] }

/-- The pairs pushed on the queue by one iteration of the loop: what the iteration leaves
in the queue behind the entries that were waiting already. -/
def bfsPushed (maxDepth : Int) (s : BfsState) : List (Str × Int) :=
  (bfsStep maxDepth s).queue.drop (s.queue.length - 1)

/-- The `while` loop of `getRelatedWords` run together with a record of every
`queue.push`: `log` lists the pairs pushed so far, in order. -/
def bfsLoopLog (maxDepth : Int) :
    Nat → BfsState → List (Str × Int) → Option (BfsState × List (Str × Int))
  | 0, _, _ => none
  | fuel + 1, s, log =>
    if s.queue.isEmpty then some (s, log)
    else bfsLoopLog maxDepth fuel (bfsStep maxDepth s) (log ++ bfsPushed maxDepth s)

/-- The total number of occurrences of `w` over the matched-word lists of all entries of
the flagged-content log. -/
def logOccurrences (log : List (Str × List Str)) (w : Str) : Nat :=
  (log.map (fun e => e.2.count w)).sum

/-- The text made of `n` copies of `piece`, one after the other. -/
def repeatText : Nat → Str → Str
  | 0, _ => []
  | n + 1, piece => piece ++ repeatText n piece

/-! # Theorems -/

/-! ## Association-list lemmas -/

theorem mapFind_mapSet_same {κ : Type} [DecidableEq κ] {α : Type}
    (m : List (κ × α)) (k : κ) (v : α) : mapFind (mapSet m k v) k = some v := by
  induction m with
  | nil => simp [mapSet, mapFind]
  | cons p rest ih =>
    obtain ⟨k0, x⟩ := p
    by_cases h : k0 = k
    · simp [mapSet, mapFind, h]
    · simp [mapSet, mapFind, h, ih]

theorem mapFind_mapSet_other {κ : Type} [DecidableEq κ] {α : Type}
    (m : List (κ × α)) (k k' : κ) (v : α) (hne : k ≠ k') :
    mapFind (mapSet m k v) k' = mapFind m k' := by
  induction m with
  | nil => simp [mapSet, mapFind, hne]
  | cons p rest ih =>
    obtain ⟨k0, x⟩ := p
    by_cases h : k0 = k
    · subst h
      simp [mapSet, mapFind, hne]
    · by_cases h' : k0 = k'
      · subst h'
        simp [mapSet, mapFind, h]
      · simp [mapSet, mapFind, h, h', ih]

/-! ## Trie lemmas -/

theorem searchWord_new (v : Str) : searchWord TrieNode.new v = false := by
  cases v <;> simp [TrieNode.new, searchWord, mapFind]

theorem searchWord_insertFrom (whole : Str) (w : Str) :
    ∀ (t : TrieNode) (v : Str),
      searchWord (insertFrom whole w t) v = (decide (v = w) || searchWord t v) := by
  induction w with
  | nil =>
    intro t v
    obtain ⟨ch, e, x⟩ := t
    cases v with
    | nil => simp [insertFrom, searchWord]
    | cons d ds => simp [insertFrom, searchWord]
  | cons c cs ih =>
    intro t v
    obtain ⟨ch, e, x⟩ := t
    cases hfind : mapFind ch c with
    | none =>
      cases v with
      | nil => simp [insertFrom, searchWord, hfind]
      | cons d ds =>
        by_cases hd : c = d
        · subst hd
          simp [insertFrom, searchWord, hfind, mapFind_mapSet_same, ih, searchWord_new]
        · have hd' : ¬ d = c := fun h => hd h.symm
          simp [insertFrom, searchWord, hfind, mapFind_mapSet_other _ _ _ _ hd, hd']
    | some child =>
      cases v with
      | nil => simp [insertFrom, searchWord, hfind]
      | cons d ds =>
        by_cases hd : c = d
        · subst hd
          simp [insertFrom, searchWord, hfind, mapFind_mapSet_same, ih]
        · have hd' : ¬ d = c := fun h => hd h.symm
          simp [insertFrom, searchWord, hfind, mapFind_mapSet_other _ _ _ _ hd, hd']

theorem searchWord_insertWord (t : TrieNode) (w v : Str) :
    searchWord (insertWord t w) v = (decide (v = w) || searchWord t v) :=
  searchWord_insertFrom w w t v

theorem searchWord_insertWords (ws : List Str) :
    ∀ (t : TrieNode) (v : Str),
      searchWord (insertWords t ws) v = (decide (v ∈ ws) || searchWord t v) := by
  induction ws with
  | nil => intro t v; simp [insertWords]
  | cons w ws ih =>
    intro t v
    have h := ih (insertWord t w) v
    simp only [insertWords, List.foldl_cons] at h ⊢
    rw [h, searchWord_insertWord]
    by_cases h1 : v = w <;> by_cases h2 : v ∈ ws <;> simp [h1, h2]

/-- C1: `searchWord(w)` is true immediately after `insertWord(w)`, and stays true after
any further sequence `ws` of `insertWord` calls (in particular with words different
from `w`). -/
theorem C1_search_after_insert (root : TrieNode) (w : Str) (ws : List Str) :
    searchWord (insertWord root w) w = true ∧
    searchWord (insertWords (insertWord root w) ws) w = true := by
  constructor
  · simp [searchWord_insertWord]
  · simp [searchWord_insertWords, searchWord_insertWord]

/-- C2: starting from the empty Trie, after any sequence `ws` of `insertWord` calls,
`searchWord(w)` is true exactly for the inserted words; so it is false for every word
that was not inserted, in particular for a strict prefix `p` of an inserted word
`p ++ c :: s` when `p` itself was not inserted. -/
theorem C2_search_only_inserted (ws : List Str) :
    (∀ w : Str, searchWord (insertWords TrieNode.new ws) w = true ↔ w ∈ ws) ∧
    (∀ w : Str, w ∉ ws → searchWord (insertWords TrieNode.new ws) w = false) ∧
    (∀ (p s : Str) (c : Char), p ++ c :: s ∈ ws → p ∉ ws →
        searchWord (insertWords TrieNode.new ws) p = false) := by
  have key : ∀ w : Str, searchWord (insertWords TrieNode.new ws) w = decide (w ∈ ws) := by
    intro w
    simp [searchWord_insertWords, searchWord_new]
  refine ⟨?_, ?_, ?_⟩
  · intro w; simp [key]
  · intro w hw; simp [key, hw]
  · intro p s c _ hp; simp [key, hp]

/-- Witness of C2: after inserting "scam" and "hate" into the empty Trie, the strict
prefix "sca" of "scam" is not found. -/
theorem C2_search_only_inserted_witness :
    "sca".toList ++ 'm' :: [] ∈ ["scam".toList, "hate".toList] ∧
    "sca".toList ∉ ["scam".toList, "hate".toList] ∧
    searchWord (insertWords TrieNode.new ["scam".toList, "hate".toList]) "sca".toList = false :=
  ⟨by decide, by decide,
    (C2_search_only_inserted ["scam".toList, "hate".toList]).2.2 "sca".toList [] 'm'
      (by decide) (by decide)⟩

/-! ## Tokenising and matching -/

theorem extractWords_eq_go (s : Str) :
    ∀ acc : Str, extractWords s acc =
      (List.splitOnP.go isspace s acc.reverse).filter (fun t => !t.isEmpty) := by
  induction s with
  | nil =>
    intro acc
    cases acc <;> simp [extractWords, List.splitOnP.go, List.filter]
  | cons c cs ih =>
    intro acc
    by_cases hc : isspace c = true
    · cases acc with
      | nil => simp [extractWords, List.splitOnP.go, hc, ih, List.filter]
      | cons a as => simp [extractWords, List.splitOnP.go, hc, ih, List.filter]
    · simp only [extractWords, List.splitOnP.go, hc, ih]
      simp

theorem extractWords_eq_splitOnP (s : Str) :
    extractWords s [] = (s.splitOnP isspace).filter (fun t => !t.isEmpty) := by
  simpa [List.splitOnP] using extractWords_eq_go s []

theorem wrapInt32_wrap_add (a b : Int) : wrapInt32 (wrapInt32 a + b) = wrapInt32 (a + b) := by
  unfold wrapInt32
  omega

theorem wrapInt32_of_range (a : Int) (h1 : -2147483648 ≤ a) (h2 : a ≤ 2147483647) :
    wrapInt32 a = a := by
  unfold wrapInt32
  omega

theorem counter_incrementCounter (freq : FreqTable) (word w : Str) :
    counter (incrementCounter freq word) w =
      if w = word then wrapInt32 (counter freq w + 1) else counter freq w := by
  unfold counter incrementCounter
  by_cases h : w = word
  · subst h
    simp [mapFind_mapSet_same]
  · have h' : word ≠ w := fun e => h e.symm
    simp [mapFind_mapSet_other _ _ _ _ h', h]

theorem searchFlaggedLoop_spec (root : TrieNode) (toks : List Str) :
    ∀ (flagged : List Str) (freq : FreqTable),
      (searchFlaggedLoop root toks (flagged, freq)).1 =
        flagged ++ (toks.map removePunct).filter (searchWord root) ∧
      ∀ w, counter (searchFlaggedLoop root toks (flagged, freq)).2 w =
        if ((toks.map removePunct).filter (searchWord root)).count w = 0 then counter freq w
        else wrapInt32 (counter freq w +
          (((toks.map removePunct).filter (searchWord root)).count w : Nat)) := by
  induction toks with
  | nil => intro flagged freq; simp [searchFlaggedLoop]
  | cons tok rest ih =>
    intro flagged freq
    by_cases h : searchWord root (removePunct tok) = true
    · obtain ⟨h1, h2⟩ := ih (flagged ++ [removePunct tok]) (incrementCounter freq (removePunct tok))
      refine ⟨by simp [searchFlaggedLoop, h, h1], ?_⟩
      intro w
      simp only [searchFlaggedLoop, h, if_true, h2, counter_incrementCounter, List.map_cons,
        List.filter_cons_of_pos, List.count_cons]
      by_cases hw : w = removePunct tok
      · subst hw
        simp only [if_true, beq_self_eq_true, Nat.add_one_ne_zero, if_false]
        by_cases hk : ((rest.map removePunct).filter (searchWord root)).count (removePunct tok) = 0
        · simp [hk]
        · simp only [hk, if_false, wrapInt32_wrap_add]
          congr 1
          push_cast
          ring
      · have hw' : ¬ removePunct tok = w := fun e => hw e.symm
        simp [hw, hw']
    · obtain ⟨h1, h2⟩ := ih flagged freq
      refine ⟨by simp [searchFlaggedLoop, h, h1], ?_⟩
      intro w
      simp [searchFlaggedLoop, h, h2]

theorem searchFlaggedWords_spec (root : TrieNode) (freq : FreqTable) (text : Str) :
    (searchFlaggedWords root freq text).1 = (normalisedTokens text).filter (searchWord root) ∧
    ∀ w, counter (searchFlaggedWords root freq text).2 w =
      if (searchFlaggedWords root freq text).1.count w = 0 then counter freq w
      else wrapInt32 (counter freq w + ((searchFlaggedWords root freq text).1.count w : Nat)) := by
  have h := searchFlaggedLoop_spec root (extractWords (text.map tolower) []) [] freq
  have e : (searchFlaggedWords root freq text).1 =
      (normalisedTokens text).filter (searchWord root) := by
    unfold searchFlaggedWords normalisedTokens
    rw [h.1, extractWords_eq_splitOnP, List.nil_append]
  refine ⟨e, ?_⟩
  intro w
  rw [e]
  unfold searchFlaggedWords normalisedTokens
  rw [h.2, extractWords_eq_splitOnP]

theorem searchFlaggedWords_counter_exact (root : TrieNode) (freq : FreqTable) (text : Str)
    (w : Str) (hlow : -2147483648 ≤ counter freq w)
    (hhigh : counter freq w + ((searchFlaggedWords root freq text).1.count w : Nat) ≤
      2147483647) :
    counter (searchFlaggedWords root freq text).2 w =
      counter freq w + ((searchFlaggedWords root freq text).1.count w : Nat) := by
  rw [(searchFlaggedWords_spec root freq text).2 w]
  by_cases hk : (searchFlaggedWords root freq text).1.count w = 0
  · simp [hk]
  · rw [if_neg hk]
    exact wrapInt32_of_range _ (by omega) hhigh

theorem searchFlaggedLoop_no_match (root : TrieNode) (toks : List Str)
    (h : ∀ tok ∈ toks, searchWord root (removePunct tok) = false) :
    ∀ st : List Str × FreqTable, searchFlaggedLoop root toks st = st := by
  induction toks with
  | nil => intro st; simp [searchFlaggedLoop]
  | cons tok rest ih =>
    intro st
    obtain ⟨flagged, freq⟩ := st
    have h1 : searchWord root (removePunct tok) = false := h tok (List.mem_cons_self _ _)
    have h2 : ∀ t ∈ rest, searchWord root (removePunct t) = false :=
      fun t ht => h t (List.mem_cons_of_mem _ ht)
    simp [searchFlaggedLoop, h1, ih h2]

theorem searchFlaggedWords_no_match (root : TrieNode) (freq : FreqTable) (text : Str)
    (h : ∀ t ∈ normalisedTokens text, searchWord root t = false) :
    searchFlaggedWords root freq text = ([], freq) := by
  unfold searchFlaggedWords
  apply searchFlaggedLoop_no_match
  intro tok htok
  apply h
  unfold normalisedTokens
  rw [← extractWords_eq_splitOnP]
  exact List.mem_map_of_mem _ htok

/-- C3 as stated fails for a counter at the top of the `int` range: with "scam" in the
Trie and the counter of "scam" at 2147483647, the text "scam" returns ["scam"] and the
counter becomes -2147483648, not 2147483648. -/
theorem C3_overflow_counterexample :
    counter [("scam".toList, 2147483647)] "scam".toList = 2147483647 ∧
    (searchFlaggedWords sampleSystem.root [("scam".toList, 2147483647)] "scam".toList).1 =
      ["scam".toList] ∧
    counter (searchFlaggedWords sampleSystem.root [("scam".toList, 2147483647)]
      "scam".toList).2 "scam".toList = -2147483648 ∧
    counter (searchFlaggedWords sampleSystem.root [("scam".toList, 2147483647)]
      "scam".toList).2 "scam".toList ≠
      counter [("scam".toList, 2147483647)] "scam".toList +
        (((searchFlaggedWords sampleSystem.root [("scam".toList, 2147483647)]
          "scam".toList).1.count "scam".toList : Nat) : Int) := by
  decide

/-- C3, amended: `searchFlaggedWords(text)` returns, in left-to-right order, exactly the
tokens of the lowercased text (split on whitespace, punctuation removed from each token)
that the Trie contains, a token occurring several times being listed several times;
afterwards the counter of a word `w` that does not occur in the returned list is
unchanged, the counter of a word that occurs in it is its prior value plus its number of
occurrences reduced to the 32-bit `int` range, and it is exactly the prior value plus the
number of occurrences whenever that sum does not exceed 2147483647. In particular, with
"scam" in the Trie (and none of "this", "is", "a") and its counter below 2147483647, the
text "This is a SCAM!!" returns ["scam"] and raises the counter of "scam" by exactly 1. -/
theorem C3_searchFlaggedWords (root : TrieNode) (freq : FreqTable) (text : Str) :
    (searchFlaggedWords root freq text).1 = (normalisedTokens text).filter (searchWord root) ∧
    (∀ w, (searchFlaggedWords root freq text).1.count w = 0 →
      counter (searchFlaggedWords root freq text).2 w = counter freq w) ∧
    (∀ w, 0 < (searchFlaggedWords root freq text).1.count w →
      counter (searchFlaggedWords root freq text).2 w =
        wrapInt32 (counter freq w + ((searchFlaggedWords root freq text).1.count w : Nat))) ∧
    (∀ w, -2147483648 ≤ counter freq w →
      counter freq w + ((searchFlaggedWords root freq text).1.count w : Nat) ≤ 2147483647 →
      counter (searchFlaggedWords root freq text).2 w =
        counter freq w + ((searchFlaggedWords root freq text).1.count w : Nat)) ∧
    (searchWord root "scam".toList = true → searchWord root "this".toList = false →
      searchWord root "is".toList = false → searchWord root "a".toList = false →
      -2147483648 ≤ counter freq "scam".toList → counter freq "scam".toList < 2147483647 →
      (searchFlaggedWords root freq "This is a SCAM!!".toList).1 = ["scam".toList] ∧
      counter (searchFlaggedWords root freq "This is a SCAM!!".toList).2 "scam".toList =
        counter freq "scam".toList + 1) := by
  refine ⟨(searchFlaggedWords_spec root freq text).1, ?_, ?_,
    fun w => searchFlaggedWords_counter_exact root freq text w, ?_⟩
  · intro w hk
    rw [(searchFlaggedWords_spec root freq text).2 w, if_pos hk]
  · intro w hk
    rw [(searchFlaggedWords_spec root freq text).2 w, if_neg (by omega)]
  · intro h1 h2 h3 h4 hlow hhigh
    have htok : normalisedTokens "This is a SCAM!!".toList =
        ["this".toList, "is".toList, "a".toList, "scam".toList] := by decide
    have e : (searchFlaggedWords root freq "This is a SCAM!!".toList).1 = ["scam".toList] := by
      rw [(searchFlaggedWords_spec root freq _).1, htok]
      simp only [List.filter, h1, h2, h3, h4]
    refine ⟨e, ?_⟩
    have hx := searchFlaggedWords_counter_exact root freq "This is a SCAM!!".toList
      "scam".toList hlow
    rw [e] at hx
    simp only [List.count_singleton_self, Nat.cast_one] at hx
    exact hx (by omega)

/-- Witness of C3: the Trie of the sample banned list contains "scam" and none of "this",
"is", "a"; on it the text "This is a SCAM!!" returns ["scam"] and the counter of "scam"
goes from 0 to 1. -/
theorem C3_searchFlaggedWords_witness :
    (searchFlaggedWords sampleSystem.root [] "This is a SCAM!!".toList).1 = ["scam".toList] ∧
    counter (searchFlaggedWords sampleSystem.root [] "This is a SCAM!!".toList).2 "scam".toList =
      counter [] "scam".toList + 1 :=
  (C3_searchFlaggedWords sampleSystem.root [] []).2.2.2.2 (by decide) (by decide) (by decide)
    (by decide) (by decide) (by decide)

/-! ## Flagging -/

theorem flagContent_flagged (s : ContentModerationSystem) (text : Str)
    (h : (searchFlaggedWords s.root s.flaggedTermsFrequency text).1 ≠ []) :
    flagContent s text =
      (true, { s with
        flaggedTermsFrequency := (searchFlaggedWords s.root s.flaggedTermsFrequency text).2,
        flaggedContent := s.flaggedContent ++
          [(text, (searchFlaggedWords s.root s.flaggedTermsFrequency text).1)] }) := by
  unfold flagContent
  simp [h]

theorem flagContent_clean (s : ContentModerationSystem) (text : Str)
    (h : (searchFlaggedWords s.root s.flaggedTermsFrequency text).1 = []) :
    flagContent s text =
      (false, { s with
        flaggedTermsFrequency := (searchFlaggedWords s.root s.flaggedTermsFrequency text).2 }) := by
  unfold flagContent
  simp [h]

theorem flagContent_log_nonempty (s : ContentModerationSystem) (text : Str)
    (h : ∀ e ∈ s.flaggedContent, e.2 ≠ []) :
    ∀ e ∈ (flagContent s text).2.flaggedContent, e.2 ≠ [] := by
  by_cases hm : (searchFlaggedWords s.root s.flaggedTermsFrequency text).1 = []
  · rw [flagContent_clean s text hm]
    exact h
  · rw [flagContent_flagged s text hm]
    intro e he
    simp only [List.mem_append, List.mem_singleton] at he
    rcases he with he | he
    · exact h e he
    · rw [he]; exact hm

theorem processContent_log (s s1 : ContentModerationSystem) (text : Str)
    (r : Option (List (Str × Int × List Str)))
    (h : processContent s text = some (r, s1)) :
    s1.flaggedContent = (flagContent s text).2.flaggedContent := by
  unfold processContent at h
  by_cases hf : (flagContent s text).1 = true
  · simp only [hf, if_true] at h
    cases hl : (flagContent s text).2.flaggedContent.getLast? with
    | none => simp [hl] at h
    | some lastFlagged =>
      simp only [hl] at h
      cases hp : processTerms lastFlagged.2 (flagContent s text).2.flaggedTermsFrequency
          (flagContent s text).2.termRelationships with
      | none => simp [hp] at h
      | some res =>
        obtain ⟨report, freq, g⟩ := res
        simp only [hp, Option.some.injEq, Prod.mk.injEq] at h
        rw [← h.2]
  · simp only [hf] at h
    simp only [Bool.false_eq_true, if_false, Option.some.injEq, Prod.mk.injEq] at h
    rw [← h.2]

theorem reachable_log_nonempty (s : ContentModerationSystem) (h : Reachable s) :
    ∀ e ∈ s.flaggedContent, e.2 ≠ [] := by
  induction h with
  | fresh => simp [ContentModerationSystem.new]
  | step s s1 op _ hop ih =>
    cases op with
    | loadBannedWords file =>
      simp only [applyOp, Option.some.injEq] at hop
      rw [← hop]; exact ih
    | addTermRelationship a b =>
      simp only [applyOp, Option.some.injEq] at hop
      rw [← hop]; exact ih
    | flagContent content =>
      simp only [applyOp, Option.some.injEq] at hop
      rw [← hop]; exact flagContent_log_nonempty s content ih
    | processContent content =>
      simp only [applyOp, Option.map_eq_some'] at hop
      obtain ⟨⟨r, s2⟩, hp, he⟩ := hop
      simp only at he
      subst he
      rw [processContent_log s s2 content r hp]
      exact flagContent_log_nonempty s content ih
    | collectFeedback =>
      simp only [applyOp, Option.some.injEq] at hop
      rw [← hop]; exact ih
    | visualizeTermGraph =>
      simp only [applyOp, Option.some.injEq] at hop
      rw [← hop]; exact ih
    | addBannedWord w =>
      simp only [applyOp, Option.some.injEq] at hop
      rw [← hop]; exact ih
    | showStatistics =>
      simp only [applyOp, Option.some.injEq] at hop
      rw [← hop]; exact ih

/-- C7: `flagContent(text)` returns true if and only if `searchFlaggedWords(text)` is
non-empty; when it returns true the flagged-content log afterwards is the previous log
with exactly one entry appended, (the original text, the matched-word list); when it
returns false the log is unchanged. Consequently, in every state reached from a fresh
system by public operations, no log entry has an empty matched-word list. -/
theorem C7_flagContent_log (s : ContentModerationSystem) (text : Str) :
    ((flagContent s text).1 = true ↔
      (searchFlaggedWords s.root s.flaggedTermsFrequency text).1 ≠ []) ∧
    ((flagContent s text).1 = true →
      (flagContent s text).2.flaggedContent =
        s.flaggedContent ++
          [(text, (searchFlaggedWords s.root s.flaggedTermsFrequency text).1)]) ∧
    ((flagContent s text).1 = false →
      (flagContent s text).2.flaggedContent = s.flaggedContent) ∧
    (Reachable s → ∀ e ∈ s.flaggedContent, e.2 ≠ []) := by
  by_cases hm : (searchFlaggedWords s.root s.flaggedTermsFrequency text).1 = []
  · rw [flagContent_clean s text hm]
    simp only [hm]
    exact ⟨by simp, by simp, by simp, reachable_log_nonempty s⟩
  · rw [flagContent_flagged s text hm]
    exact ⟨by simp [hm], by simp, by simp, reachable_log_nonempty s⟩

/-- Witness of C7: on the sample system, which is reached by loading the sample banned
words, `flagContent("This is a SCAM!!")` returns true and the log becomes the one
entry (the text, ["scam"]). -/
theorem C7_flagContent_log_witness :
    (flagContent sampleSystem "This is a SCAM!!".toList).1 = true ∧
    (flagContent sampleSystem "This is a SCAM!!".toList).2.flaggedContent =
      [("This is a SCAM!!".toList, ["scam".toList])] ∧
    (Reachable sampleSystem ∧ ∀ e ∈ sampleSystem.flaggedContent, e.2 ≠ []) :=
  have hr : Reachable sampleSystem :=
    Reachable.step ContentModerationSystem.new sampleSystem
      (Op.loadBannedWords (some sampleBannedWordsFile)) Reachable.fresh rfl
  ⟨by decide,
   (C7_flagContent_log sampleSystem "This is a SCAM!!".toList).2.1 (by decide),
   hr, (C7_flagContent_log sampleSystem "This is a SCAM!!".toList).2.2.2 hr⟩

/-- C8: when none of the normalised tokens of the text (lowercased, punctuation removed)
is contained in the Trie, `flagContent(text)` returns false and leaves the whole state
unchanged: the frequency table (no counter changes, no new key), the Trie, the
flagged-content log and the graph. -/
theorem C8_flagContent_no_match (s : ContentModerationSystem) (text : Str)
    (h : ∀ t ∈ normalisedTokens text, searchWord s.root t = false) :
    flagContent s text = (false, s) := by
  have e := searchFlaggedWords_no_match s.root s.flaggedTermsFrequency text h
  rw [flagContent_clean s text (by rw [e]), e]

/-- Witness of C8: the text "hello world" against the sample banned list. -/
theorem C8_flagContent_no_match_witness :
    (∀ t ∈ normalisedTokens "hello world".toList, searchWord sampleSystem.root t = false) ∧
    flagContent sampleSystem "hello world".toList = (false, sampleSystem) :=
  ⟨by decide, C8_flagContent_no_match sampleSystem "hello world".toList (by decide)⟩

/-! ## Breadth-first traversal -/

theorem mapFind_mapTouch {κ : Type} [DecidableEq κ] {α : Type}
    (m : List (κ × α)) (k u : κ) (d : α) :
    mapFind (mapTouch m k d) u = mapFind m u ∨
      (mapFind m u = none ∧ mapFind (mapTouch m k d) u = some d) := by
  unfold mapTouch
  cases hk : mapFind m k with
  | some v => left; rfl
  | none =>
    simp only
    have happ : ∀ (l : List (κ × α)), mapFind (l ++ [(k, d)]) u =
        match mapFind l u with
        | some v => some v
        | none => if k = u then some d else none := by
      intro l
      induction l with
      | nil => simp [mapFind]
      | cons p rest ih =>
        obtain ⟨k0, x⟩ := p
        by_cases h0 : k0 = u
        · simp [mapFind, h0]
        · simp [mapFind, h0, ih]
    rw [happ]
    cases hu : mapFind m u with
    | some v => left; rfl
    | none =>
      by_cases hku : k = u
      · right; simp [hku]
      · left; simp [hku]

theorem neighbours_mapTouch (g : Graph) (k u : Str) :
    neighbours (mapTouch g k []) u = neighbours g u := by
  unfold neighbours
  rcases mapFind_mapTouch g k u [] with h | ⟨h1, h2⟩
  · rw [h]
  · rw [h1, h2]; rfl

theorem visitNeighbours_spec (depth : Int) (ns : List Str) :
    ∀ (visited : List Str) (queue : List (Str × Int)),
      ∃ fresh : List Str,
        (visitNeighbours depth ns (visited, queue)).2 =
          queue ++ fresh.map (fun n => (n, depth + 1)) ∧
        (∀ w, w ∈ (visitNeighbours depth ns (visited, queue)).1 ↔ w ∈ visited ∨ w ∈ fresh) ∧
        fresh.Nodup ∧
        (∀ n ∈ fresh, n ∉ visited ∧ n ∈ ns) ∧
        (∀ n ∈ ns, n ∈ visited ∨ n ∈ fresh) := by
  induction ns with
  | nil =>
    intro visited queue
    exact ⟨[], by simp [visitNeighbours]⟩
  | cons n rest ih =>
    intro visited queue
    by_cases hn : n ∈ visited
    · obtain ⟨fresh, h1, h2, h3, h4, h5⟩ := ih visited queue
      refine ⟨fresh, ?_, ?_, h3, ?_, ?_⟩
      · simp [visitNeighbours, hn, h1]
      · intro w; simp only [visitNeighbours, hn, if_true]; exact h2 w
      · intro m hm; exact ⟨(h4 m hm).1, List.mem_cons_of_mem _ (h4 m hm).2⟩
      · intro m hm
        rcases List.mem_cons.1 hm with e | e
        · left; rw [e]; exact hn
        · exact h5 m e
    · obtain ⟨fresh, h1, h2, h3, h4, h5⟩ := ih (n :: visited) (queue ++ [(n, depth + 1)])
      refine ⟨n :: fresh, ?_, ?_, ?_, ?_, ?_⟩
      · simp [visitNeighbours, hn, h1]
      · intro w
        simp only [visitNeighbours, hn, if_false]
        rw [h2 w]
        simp only [List.mem_cons]
        tauto
      · refine List.nodup_cons.2 ⟨?_, h3⟩
        intro hmem
        exact (h4 n hmem).1 (List.mem_cons_self _ _)
      · intro m hm
        rcases List.mem_cons.1 hm with e | e
        · rw [e]; exact ⟨hn, List.mem_cons_self _ _⟩
        · exact ⟨fun hv => (h4 m e).1 (List.mem_cons_of_mem _ hv),
            List.mem_cons_of_mem _ (h4 m e).2⟩
      · intro m hm
        rcases List.mem_cons.1 hm with e | e
        · right; rw [e]; exact List.mem_cons_self _ _
        · rcases h5 m e with h | h
          · rcases List.mem_cons.1 h with e' | e'
            · right; rw [e']; exact List.mem_cons_self _ _
            · left; exact e'
          · right; exact List.mem_cons_of_mem _ h

theorem neighbours_of_entries (g g0 : Graph) (u : Str)
    (h : mapFind g u = mapFind g0 u ∨ (mapFind g0 u = none ∧ mapFind g u = some [])) :
    neighbours g u = neighbours g0 u := by
  unfold neighbours
  rcases h with h | ⟨h1, h2⟩
  · rw [h]
  · rw [h1, h2]; rfl

theorem bfsInv_init (g : Graph) (start : Str) (maxDepth : Int) :
    BfsInv g start maxDepth []
      { adjacencyList := g, visited := [start], queue := [(start, 0)], relatedWords := [] } where
  entries := fun _ => Or.inl rfl
  vis := by intro w; simp
  nodup := by simp
  sorted := by simp
  span := by
    intro p hp q hq
    simp only [List.nil_append, List.mem_singleton] at hp hq
    rw [hp, hq]; simp
  path := by
    intro p hp
    simp only [List.nil_append, List.mem_singleton] at hp
    rw [hp]
    exact ⟨0, rfl, rfl, Or.inl rfl⟩
  closed := by intro p hp; simp at hp
  start_mem := by simp
  out := by simp

theorem bfsInv_advance (g0 : Graph) (start : Str) (maxDepth : Int)
    (popped : List (Str × Int)) (g : Graph) (visited : List Str) (w : Str) (d : Int)
    (rest : List (Str × Int)) (out : List Str)
    (hinv : BfsInv g0 start maxDepth popped
      { adjacencyList := g, visited := visited, queue := (w, d) :: rest, relatedWords := out })
    (g1 : Graph) (visited1 fresh : List Str)
    (hg1 : ∀ u, mapFind g1 u = mapFind g u ∨ (mapFind g u = none ∧ mapFind g1 u = some []))
    (hv : ∀ x, x ∈ visited1 ↔ x ∈ visited ∨ x ∈ fresh)
    (hnd : fresh.Nodup)
    (hf1 : ∀ n ∈ fresh, n ∉ visited ∧ n ∈ neighbours g0 w ∧ d < maxDepth)
    (hf2 : d < maxDepth → ∀ n ∈ neighbours g0 w, n ∈ visited ∨ n ∈ fresh) :
    BfsInv g0 start maxDepth (popped ++ [(w, d)])
      { adjacencyList := g1, visited := visited1,
        queue := rest ++ fresh.map (fun n => (n, d + 1)),
        relatedWords := if d > 0 then out ++ [w] else out } := by
  obtain ⟨hentries, hvis, hnodup, hsorted, hspan, hpath, hclosed, hstart, hout⟩ := hinv
  simp only at hentries hvis hnodup hsorted hspan hpath hclosed hstart hout
  have eall : popped ++ [(w, d)] ++ (rest ++ fresh.map (fun n => (n, d + 1))) =
      (popped ++ (w, d) :: rest) ++ fresh.map (fun n => (n, d + 1)) := by simp
  have hhead : ∀ q ∈ popped ++ (w, d) :: rest, q.2 ≤ d + 1 :=
    fun q hq => hspan (w, d) (List.mem_cons_self _ _) q hq
  have hge : ∀ p ∈ rest, d ≤ p.2 := by
    intro p hp
    rw [List.map_append, List.map_cons, List.pairwise_append] at hsorted
    have h2 := (List.pairwise_cons.1 hsorted.2.1).1
    exact h2 p.2 (List.mem_map_of_mem _ hp)
  have hfst : (fresh.map (fun n => (n, d + 1))).map Prod.fst = fresh := by
    simp [Function.comp_def]
  have hmemF : ∀ q, q ∈ fresh.map (fun n => ((n, d + 1) : Str × Int)) →
      q.1 ∈ fresh ∧ q.2 = d + 1 := by
    intro q hq
    obtain ⟨n, hn, e⟩ := List.mem_map.1 hq
    rw [← e]; exact ⟨hn, rfl⟩
  refine
    { entries := ?_, vis := ?_, nodup := ?_, sorted := ?_, span := ?_, path := ?_,
      closed := ?_, start_mem := ?_, out := ?_ }
  · intro u
    simp only
    rcases hg1 u with h | ⟨h1, h2⟩
    · rw [h]; exact hentries u
    · rcases hentries u with h' | ⟨h3, h4⟩
      · right; exact ⟨by rw [← h', h1], h2⟩
      · rw [h1] at h4; cases h4
  · intro x
    simp only
    rw [eall, List.map_append, hfst, List.mem_append, hv x, hvis x]
  · simp only
    rw [eall, List.map_append, hfst]
    refine List.Nodup.append hnodup hnd ?_
    intro x hx hx'
    exact (hf1 x hx').1 ((hvis x).2 hx)
  · simp only
    rw [eall, List.map_append, List.pairwise_append]
    refine ⟨hsorted, ?_, ?_⟩
    · rw [List.pairwise_map, List.pairwise_map]
      exact List.pairwise_of_forall (fun _ _ => le_refl _)
    · intro a ha b hb
      obtain ⟨q, hq, e⟩ := List.mem_map.1 ha
      obtain ⟨q', hq', e'⟩ := List.mem_map.1 hb
      rw [← e, ← e', (hmemF q' hq').2]
      exact hhead q hq
  · intro p hp q hq
    simp only at hp
    rw [eall] at hq
    have hp2 : d ≤ p.2 := by
      rcases List.mem_append.1 hp with h | h
      · exact hge p h
      · rw [(hmemF p h).2]; omega
    have hq2 : q.2 ≤ d + 1 := by
      rcases List.mem_append.1 hq with h | h
      · exact hhead q h
      · rw [(hmemF q h).2]
    omega
  · intro p hp
    simp only at hp
    rw [eall] at hp
    rcases List.mem_append.1 hp with h | h
    · exact hpath p h
    · obtain ⟨hpf, hp2⟩ := hmemF p h
      obtain ⟨m, hm, hreach, _⟩ := hpath (w, d) (by simp)
      refine ⟨m + 1, ?_, ⟨w, hreach, (hf1 p.1 hpf).2.1⟩, Or.inr ?_⟩
      · rw [hp2]; simp only at hm; rw [hm]; simp
      · have := (hf1 p.1 hpf).2.2
        simp only at hm
        push_cast
        omega
  · intro p hp hlt n hn
    simp only
    rw [eall]
    rcases List.mem_append.1 hp with h | h
    · obtain ⟨q, hq, h1, h2⟩ := hclosed p h hlt n hn
      exact ⟨q, List.mem_append_left _ hq, h1, h2⟩
    · simp only [List.mem_singleton] at h
      subst h
      rcases hf2 hlt n hn with hv' | hfr
      · obtain ⟨q, hq, e⟩ := List.mem_map.1 ((hvis n).1 hv')
        exact ⟨q, List.mem_append_left _ hq, e, hhead q hq⟩
      · exact ⟨(n, d + 1), List.mem_append_right _ (List.mem_map_of_mem _ hfr), rfl, le_refl _⟩
  · simp only
    rw [eall]
    exact List.mem_append_left _ hstart
  · simp only
    rw [List.filter_append, List.map_append, ← hout]
    by_cases hd : 0 < d
    · simp [hd, List.filter]
    · simp [hd, List.filter]

theorem bfsInv_step (g0 : Graph) (start : Str) (maxDepth : Int)
    (popped : List (Str × Int)) (s : BfsState) (w : Str) (d : Int) (rest : List (Str × Int))
    (hinv : BfsInv g0 start maxDepth popped s) (hq : s.queue = (w, d) :: rest) :
    BfsInv g0 start maxDepth (popped ++ [(w, d)]) (bfsStep maxDepth s) := by
  obtain ⟨g, visited, queue, out⟩ := s
  simp only at hq
  subst hq
  have hnb : neighbours g w = neighbours g0 w := neighbours_of_entries g g0 w (hinv.entries w)
  by_cases hd : d < maxDepth
  · obtain ⟨fresh, h1, h2, h3, h4, h5⟩ :=
      visitNeighbours_spec d (neighbours (mapTouch g w []) w) visited rest
    rw [neighbours_mapTouch, hnb] at h1 h2 h4 h5
    have hstep : bfsStep maxDepth
        { adjacencyList := g, visited := visited, queue := (w, d) :: rest, relatedWords := out } =
        { adjacencyList := mapTouch g w [],
          visited := (visitNeighbours d (neighbours g0 w) (visited, rest)).1,
          queue := rest ++ fresh.map (fun n => (n, d + 1)),
          relatedWords := if d > 0 then out ++ [w] else out } := by
      simp only [bfsStep, hd, if_true, neighbours_mapTouch, hnb, h1]
    rw [hstep]
    exact bfsInv_advance g0 start maxDepth popped g visited w d rest out hinv _ _ fresh
      (fun u => mapFind_mapTouch g w u []) h2 h3
      (fun n hn => ⟨(h4 n hn).1, (h4 n hn).2, hd⟩) (fun _ => h5)
  · have hstep : bfsStep maxDepth
        { adjacencyList := g, visited := visited, queue := (w, d) :: rest, relatedWords := out } =
        { adjacencyList := g, visited := visited,
          queue := rest ++ ([] : List Str).map (fun n => (n, d + 1)),
          relatedWords := if d > 0 then out ++ [w] else out } := by
      simp only [bfsStep, hd, if_false, List.map_nil, List.append_nil]
    rw [hstep]
    exact bfsInv_advance g0 start maxDepth popped g visited w d rest out hinv g visited []
      (fun u => Or.inl rfl) (by simp) List.nodup_nil (by simp) (fun h => absurd h hd)

theorem mem_allNeighbours_of_mem_neighbours (g : Graph) (c b : Str)
    (h : b ∈ neighbours g c) : b ∈ allNeighbours g := by
  induction g with
  | nil => simp [neighbours, mapFind] at h
  | cons p rest ih =>
    obtain ⟨k, ns⟩ := p
    unfold neighbours at h ih
    by_cases hk : k = c
    · simp only [mapFind, hk, if_true, Option.getD_some] at h
      simp [allNeighbours, h]
    · simp only [mapFind, hk, if_false] at h
      simp [allNeighbours, ih h]

theorem reach_mem_allNeighbours (g : Graph) (n : Nat) (a b : Str) (h : Reach g n a b) :
    b = a ∨ b ∈ allNeighbours g := by
  cases n with
  | zero => left; exact h.symm
  | succ n =>
    obtain ⟨c, _, hc⟩ := h
    right; exact mem_allNeighbours_of_mem_neighbours g c b hc

theorem bfsInv_length_le (g0 : Graph) (start : Str) (maxDepth : Int)
    (popped : List (Str × Int)) (s : BfsState) (hinv : BfsInv g0 start maxDepth popped s) :
    (popped ++ s.queue).length ≤ (allNeighbours g0).length + 1 := by
  have hsub : (popped ++ s.queue).map Prod.fst ⊆ start :: allNeighbours g0 := by
    intro x hx
    obtain ⟨p, hp, e⟩ := List.mem_map.1 hx
    obtain ⟨n, _, hr, _⟩ := hinv.path p hp
    rw [e] at hr
    rcases reach_mem_allNeighbours g0 n start x hr with h | h
    · rw [h]; exact List.mem_cons_self _ _
    · exact List.mem_cons_of_mem _ h
  have hle := (hinv.nodup.subperm hsub).length_le
  simpa using hle

theorem bfsLoop_terminates (g0 : Graph) (start : Str) (maxDepth : Int) (fuel : Nat) :
    ∀ (popped : List (Str × Int)) (s : BfsState),
      BfsInv g0 start maxDepth popped s →
      (allNeighbours g0).length + 2 ≤ popped.length + fuel →
      ∃ (s1 : BfsState) (popped1 : List (Str × Int)),
        bfsLoop maxDepth fuel s = some s1 ∧ BfsInv g0 start maxDepth popped1 s1 ∧
        s1.queue = [] := by
  induction fuel with
  | zero =>
    intro popped s hinv hfuel
    have hle := bfsInv_length_le g0 start maxDepth popped s hinv
    rw [List.length_append] at hle
    omega
  | succ fuel ih =>
    intro popped s hinv hfuel
    cases hq : s.queue with
    | nil => exact ⟨s, popped, by simp [bfsLoop, hq], hinv, hq⟩
    | cons p rest =>
      obtain ⟨w, d⟩ := p
      have hinv1 := bfsInv_step g0 start maxDepth popped s w d rest hinv hq
      obtain ⟨s1, popped1, h1, h2, h3⟩ :=
        ih (popped ++ [(w, d)]) (bfsStep maxDepth s) hinv1
          (by rw [List.length_append, List.length_singleton]; omega)
      exact ⟨s1, popped1, by simp [bfsLoop, hq, h1], h2, h3⟩

theorem getRelatedWords_inv (g : Graph) (start : Str) (maxDepth : Int) :
    ∃ (s1 : BfsState) (popped : List (Str × Int)),
      getRelatedWords g start maxDepth = some (s1.relatedWords, s1.adjacencyList) ∧
      BfsInv g start maxDepth popped s1 ∧ s1.queue = [] := by
  obtain ⟨s1, popped1, h1, h2, h3⟩ :=
    bfsLoop_terminates g start maxDepth (bfsFuel g) [] _ (bfsInv_init g start maxDepth)
      (by simp [bfsFuel])
  exact ⟨s1, popped1, by simp [getRelatedWords, h1], h2, h3⟩

theorem getRelatedWords_spec (g : Graph) (start : Str) (maxDepth : Int) :
    ∃ (related : List Str) (g1 : Graph),
      getRelatedWords g start maxDepth = some (related, g1) ∧
      (∀ t, t ∈ related ↔
        t ≠ start ∧ ∃ n : Nat, 1 ≤ n ∧ (n : Int) ≤ maxDepth ∧ Reach g n start t) ∧
      related.Nodup ∧ start ∉ related ∧
      (∀ u, mapFind g1 u = mapFind g u ∨ (mapFind g u = none ∧ mapFind g1 u = some [])) := by
  obtain ⟨s1, popped, hres, hinv, hq⟩ := getRelatedWords_inv g start maxDepth
  obtain ⟨hentries, _, hnodup, _, _, hpath, hclosed, hstart, hout⟩ := hinv
  rw [hq, List.append_nil] at hnodup hpath hclosed hstart
  have hinj : ∀ p ∈ popped, ∀ q ∈ popped, p.1 = q.1 → p = q :=
    fun p hp q hq' e => List.inj_on_of_nodup_map hnodup hp hq' e
  have hpos : ∀ p ∈ popped, 0 < p.2 ↔ p.1 ≠ start := by
    intro p hp
    obtain ⟨n, hn, hr, _⟩ := hpath p hp
    constructor
    · intro h0 e
      have := hinj p hp (start, 0) hstart e
      rw [this] at h0
      exact absurd h0 (lt_irrefl _)
    · intro hne
      cases n with
      | zero => exact absurd hr.symm hne
      | succ n => rw [hn]; push_cast; omega
  have hmem : ∀ t, t ∈ s1.relatedWords ↔ ∃ p ∈ popped, 0 < p.2 ∧ p.1 = t := by
    intro t
    rw [hout, List.mem_map]
    constructor
    · rintro ⟨p, hp, e⟩
      rw [List.mem_filter] at hp
      exact ⟨p, hp.1, by simpa using hp.2, e⟩
    · rintro ⟨p, hp, h0, e⟩
      exact ⟨p, List.mem_filter.2 ⟨hp, by simpa using h0⟩, e⟩
  have hcomplete : ∀ (n : Nat) (t : Str), Reach g n start t → (n : Int) ≤ maxDepth →
      ∃ p ∈ popped, p.1 = t ∧ p.2 ≤ (n : Int) := by
    intro n
    induction n with
    | zero =>
      intro t hr _
      exact ⟨(start, 0), hstart, hr, le_refl _⟩
    | succ n ih =>
      intro t hr hle
      obtain ⟨c, hrc, htc⟩ := hr
      obtain ⟨p, hp, hp1, hp2⟩ := ih c hrc (by push_cast at hle; omega)
      rw [← hp1] at htc
      obtain ⟨q, hq1, hq2, hq3⟩ := hclosed p hp (by push_cast at hle; omega) t htc
      exact ⟨q, hq1, hq2, by push_cast; omega⟩
  refine ⟨s1.relatedWords, s1.adjacencyList, hres, ?_, ?_, ?_, hentries⟩
  · intro t
    rw [hmem]
    constructor
    · rintro ⟨p, hp, h0, e⟩
      obtain ⟨n, hn, hr, hb⟩ := hpath p hp
      rw [e] at hr
      refine ⟨?_, n, ?_, ?_, hr⟩
      · rw [← e]; exact (hpos p hp).1 h0
      · omega
      · rcases hb with hb | hb
        · omega
        · exact hb
    · rintro ⟨hne, n, _, hle, hr⟩
      obtain ⟨p, hp, hp1, _⟩ := hcomplete n t hr hle
      exact ⟨p, hp, (hpos p hp).2 (by rw [hp1]; exact hne), hp1⟩
  · rw [hout]
    exact (hnodup.sublist (List.Sublist.map _ (List.filter_sublist _)))
  · intro h
    obtain ⟨p, hp, h0, e⟩ := (hmem start).1 h
    exact (hpos p hp).1 h0 e

theorem neighbours_pushBack_same (g : Graph) (k x : Str) :
    neighbours (pushBack g k x) k = neighbours g k ++ [x] := by
  simp [neighbours, pushBack, mapFind_mapSet_same]

theorem neighbours_pushBack_other (g : Graph) (k u x : Str) (h : k ≠ u) :
    neighbours (pushBack g k x) u = neighbours g u := by
  simp [neighbours, pushBack, mapFind_mapSet_other _ _ _ _ h]

theorem mem_neighbours_addEdge (g : Graph) (a b : Str) :
    b ∈ neighbours (addEdge g a b) a ∧ a ∈ neighbours (addEdge g a b) b := by
  unfold addEdge
  constructor
  · by_cases h : b = a
    · subst h
      simp [neighbours_pushBack_same]
    · rw [neighbours_pushBack_other _ _ _ _ h, neighbours_pushBack_same]
      simp
  · rw [neighbours_pushBack_same]; simp

/-- C4: `getRelatedWords(start, maxDepth)` returns, and a term `t` occurs in the result if
and only if `t` differs from `start` and `t` is reached from `start` by a walk of at
least one and at most `maxDepth` hops along stored neighbour lists; in particular the
result is empty when `start` has no entry in the adjacency mapping. -/
theorem C4_getRelatedWords_reachable (g : Graph) (start : Str) (maxDepth : Int) :
    ∃ (related : List Str) (g1 : Graph),
      getRelatedWords g start maxDepth = some (related, g1) ∧
      (∀ t, t ∈ related ↔
        t ≠ start ∧ ∃ n : Nat, 1 ≤ n ∧ (n : Int) ≤ maxDepth ∧ Reach g n start t) ∧
      (mapFind g start = none → related = []) := by
  obtain ⟨related, g1, h1, h2, _, _, _⟩ := getRelatedWords_spec g start maxDepth
  refine ⟨related, g1, h1, h2, ?_⟩
  intro hnone
  apply List.eq_nil_iff_forall_not_mem.2
  intro t ht
  obtain ⟨_, n, hn, _, hr⟩ := (h2 t).1 ht
  have hno : ∀ (m : Nat) (u : Str), Reach g (m + 1) start u → False := by
    intro m
    induction m with
    | zero =>
      rintro u ⟨c, hc, hu⟩
      have hc' : start = c := hc
      subst hc'
      simp [neighbours, hnone] at hu
    | succ m ih =>
      rintro u ⟨c, hc, _⟩
      exact ih c hc
  cases n with
  | zero => omega
  | succ m => exact hno m t hr

/-- Witness of C4: in the graph with the one edge ("scam", "fraud"), "fraud" is a related
word of "scam" at depth 2; and the start "hate", which has no entry, has none. -/
theorem C4_getRelatedWords_reachable_witness :
    getRelatedWords (addEdge [] "scam".toList "fraud".toList) "scam".toList 2 =
      some (["fraud".toList], addEdge [] "scam".toList "fraud".toList) ∧
    mapFind (addEdge [] "scam".toList "fraud".toList) "hate".toList = none ∧
    ∃ (related : List Str) (g1 : Graph),
      getRelatedWords (addEdge [] "scam".toList "fraud".toList) "hate".toList 2 =
        some (related, g1) ∧ related = [] :=
  ⟨by decide, by decide,
    match C4_getRelatedWords_reachable (addEdge [] "scam".toList "fraud".toList)
      "hate".toList 2 with
    | ⟨related, g1, h1, _, h3⟩ => ⟨related, g1, h1, h3 (by decide)⟩⟩

/-- C5 as stated fails on a self-loop: after `addEdge("a", "a")` the call
`getRelatedWords("a", 1)` returns the empty sequence, which does not contain "a". -/
theorem C5_selfloop_counterexample :
    getRelatedWords (addEdge [] "a".toList "a".toList) "a".toList 1 =
      some ([], [("a".toList, ["a".toList, "a".toList])]) ∧
    ¬ ∃ (related : List Str) (g1 : Graph),
      getRelatedWords (addEdge [] "a".toList "a".toList) "a".toList 1 = some (related, g1) ∧
      "a".toList ∈ related := by
  have e : getRelatedWords (addEdge [] "a".toList "a".toList) "a".toList 1 =
      some ([], [("a".toList, ["a".toList, "a".toList])]) := by decide
  refine ⟨e, ?_⟩
  rintro ⟨related, g1, h, hmem⟩
  rw [e] at h
  simp only [Option.some.injEq, Prod.mk.injEq] at h
  rw [← h.1] at hmem
  exact absurd hmem (List.not_mem_nil _)

/-- C5, amended: for every graph and every pair of distinct terms `a ≠ b`, after
`addEdge(a, b)` the term `b` appears in `getRelatedWords(a, 1)` and the term `a` appears
in `getRelatedWords(b, 1)`. -/
theorem C5_addEdge_related (g : Graph) (a b : Str) (hab : a ≠ b) :
    (∃ (related : List Str) (g1 : Graph),
      getRelatedWords (addEdge g a b) a 1 = some (related, g1) ∧ b ∈ related) ∧
    (∃ (related : List Str) (g1 : Graph),
      getRelatedWords (addEdge g a b) b 1 = some (related, g1) ∧ a ∈ related) := by
  obtain ⟨hb, ha⟩ := mem_neighbours_addEdge g a b
  constructor
  · obtain ⟨related, g1, h1, h2, _⟩ := getRelatedWords_spec (addEdge g a b) a 1
    exact ⟨related, g1, h1, (h2 b).2 ⟨fun e => hab e.symm, 1, le_refl _, by simp, a, rfl, hb⟩⟩
  · obtain ⟨related, g1, h1, h2, _⟩ := getRelatedWords_spec (addEdge g a b) b 1
    exact ⟨related, g1, h1, (h2 a).2 ⟨hab, 1, le_refl _, by simp, b, rfl, ha⟩⟩

/-- Witness of C5 (amended): the distinct terms "scam" and "fraud" on the empty graph. -/
theorem C5_addEdge_related_witness :
    "scam".toList ≠ "fraud".toList ∧
    (∃ (related : List Str) (g1 : Graph),
      getRelatedWords (addEdge [] "scam".toList "fraud".toList) "scam".toList 1 =
        some (related, g1) ∧ "fraud".toList ∈ related) ∧
    (∃ (related : List Str) (g1 : Graph),
      getRelatedWords (addEdge [] "scam".toList "fraud".toList) "fraud".toList 1 =
        some (related, g1) ∧ "scam".toList ∈ related) :=
  ⟨by decide, C5_addEdge_related [] "scam".toList "fraud".toList (by decide)⟩

/-- C6: for every graph (cycles, self-loops and duplicate edges included), every start
term and every `maxDepth`, `getRelatedWords(start, maxDepth)` returns a sequence that
does not contain `start` and contains no term more than once. -/
theorem C6_getRelatedWords_nodup (g : Graph) (start : Str) (maxDepth : Int) :
    ∃ (related : List Str) (g1 : Graph),
      getRelatedWords g start maxDepth = some (related, g1) ∧
      start ∉ related ∧ related.Nodup := by
  obtain ⟨related, g1, h1, _, h3, h4, _⟩ := getRelatedWords_spec g start maxDepth
  exact ⟨related, g1, h1, h4, h3⟩

/-! ## Graph persistence -/

theorem getlineAll_nodelim (d : Char) (l : Str) (hl : d ∉ l) :
    ∀ acc : Str, getlineAll d l acc = if (acc ++ l).isEmpty then [] else [acc ++ l] := by
  induction l with
  | nil => intro acc; simp [getlineAll]
  | cons c cs ih =>
    intro acc
    have hc : ¬ c = d := fun e => hl (by rw [e]; exact List.mem_cons_self _ _)
    have hcs : d ∉ cs := fun h => hl (List.mem_cons_of_mem _ h)
    simp only [getlineAll, hc, if_false, ih hcs, List.append_assoc, List.singleton_append]

theorem getlineAll_append_delim (d : Char) (l rest : Str) (hl : d ∉ l) :
    ∀ acc : Str, getlineAll d (l ++ d :: rest) acc = (acc ++ l) :: getlineAll d rest [] := by
  induction l with
  | nil => intro acc; simp [getlineAll]
  | cons c cs ih =>
    intro acc
    have hc : ¬ c = d := fun e => hl (by rw [e]; exact List.mem_cons_self _ _)
    have hcs : d ∉ cs := fun h => hl (List.mem_cons_of_mem _ h)
    rw [List.cons_append]
    simp only [getlineAll, hc, if_false]
    rw [ih hcs, List.append_assoc, List.singleton_append]

theorem mem_writeNeighbors (ns : List Str) (c : Char) (h : c ∈ writeNeighbors ns) :
    c = ',' ∨ ∃ n ∈ ns, c ∈ n := by
  induction ns with
  | nil => simp [writeNeighbors] at h
  | cons n rest ih =>
    simp only [writeNeighbors, List.mem_cons, List.mem_append] at h
    rcases h with h | h | h
    · left; exact h
    · right; exact ⟨n, List.mem_cons_self _ _, h⟩
    · rcases ih h with h' | ⟨m, hm, hc⟩
      · left; exact h'
      · right; exact ⟨m, List.mem_cons_of_mem _ hm, hc⟩

theorem getlineAll_fields (ns : List Str)
    (hns : ∀ n ∈ ns, n ≠ [] ∧ ',' ∉ n) :
    ∀ (l acc : Str), ',' ∉ l →
      getlineAll ',' (l ++ writeNeighbors ns) acc =
        match ns with
        | [] => if (acc ++ l).isEmpty then [] else [acc ++ l]
        | _ :: _ => (acc ++ l) :: ns := by
  induction ns with
  | nil =>
    intro l acc hl
    simp only [writeNeighbors, List.append_nil]
    exact getlineAll_nodelim ',' l hl acc
  | cons n rest ih =>
    intro l acc hl
    have hn := hns n (List.mem_cons_self _ _)
    have hrest : ∀ m ∈ rest, m ≠ [] ∧ ',' ∉ m := fun m hm => hns m (List.mem_cons_of_mem _ hm)
    simp only [writeNeighbors]
    rw [getlineAll_append_delim ',' l _ hl acc, ih hrest n [] hn.2]
    cases rest with
    | nil =>
      have : n.isEmpty = false := by
        cases n with
        | nil => exact absurd rfl hn.1
        | cons _ _ => rfl
      simp [this]
    | cons m ms => simp

theorem mapSet_absent {κ : Type} [DecidableEq κ] {α : Type}
    (m : List (κ × α)) (k : κ) (v : α) (h : mapFind m k = none) :
    mapSet m k v = m ++ [(k, v)] := by
  induction m with
  | nil => rfl
  | cons p rest ih =>
    obtain ⟨k0, x⟩ := p
    by_cases h0 : k0 = k
    · simp [mapFind, h0] at h
    · simp only [mapFind, h0, if_false] at h
      simp [mapSet, h0, ih h]

theorem mapSet_last {κ : Type} [DecidableEq κ] {α : Type}
    (m : List (κ × α)) (k : κ) (v v1 : α) (h : mapFind m k = none) :
    mapSet (m ++ [(k, v)]) k v1 = m ++ [(k, v1)] := by
  induction m with
  | nil => simp [mapSet]
  | cons p rest ih =>
    obtain ⟨k0, x⟩ := p
    by_cases h0 : k0 = k
    · simp [mapFind, h0] at h
    · simp only [mapFind, h0, if_false] at h
      simp [mapSet, h0, ih h]

theorem mapFind_append_absent {κ : Type} [DecidableEq κ] {α : Type}
    (m : List (κ × α)) (k u : κ) (v : α) (h : mapFind m u = none) (hne : k ≠ u) :
    mapFind (m ++ [(k, v)]) u = none := by
  induction m with
  | nil => simp [mapFind, hne]
  | cons p rest ih =>
    obtain ⟨k0, x⟩ := p
    by_cases h0 : k0 = u
    · simp [mapFind, h0] at h
    · simp only [mapFind, h0, if_false] at h
      simp [mapFind, h0, ih h]

theorem mapFind_append_last {κ : Type} [DecidableEq κ] {α : Type}
    (m : List (κ × α)) (k : κ) (v : α) (h : mapFind m k = none) :
    mapFind (m ++ [(k, v)]) k = some v := by
  induction m with
  | nil => simp [mapFind]
  | cons p rest ih =>
    obtain ⟨k0, x⟩ := p
    by_cases h0 : k0 = k
    · simp [mapFind, h0] at h
    · simp only [mapFind, h0, if_false] at h
      simp [mapFind, h0, ih h]

theorem loadFields_last (word : Str) (fields : List Str) (hf : ∀ n ∈ fields, n ≠ []) :
    ∀ (g : Graph) (vs : List Str), mapFind g word = none →
      loadFields word fields (g ++ [(word, vs)]) = g ++ [(word, vs ++ fields)] := by
  induction fields with
  | nil => intro g vs _; simp [loadFields]
  | cons n rest ih =>
    intro g vs hg
    have hn : n.isEmpty = false := by
      cases n with
      | nil => exact absurd rfl (hf [] (List.mem_cons_self _ _))
      | cons _ _ => rfl
    have hrest : ∀ m ∈ rest, m ≠ [] := fun m hm => hf m (List.mem_cons_of_mem _ hm)
    simp only [loadFields, hn, Bool.not_false, if_true]
    unfold pushBack
    rw [mapFind_append_last g word vs hg, Option.getD_some, mapSet_last g word vs _ hg,
      ih hrest g (vs ++ [n]) hg]
    simp

theorem loadFields_absent (word : Str) (n : Str) (rest : List Str)
    (hf : ∀ m ∈ n :: rest, m ≠ []) (g : Graph) (hg : mapFind g word = none) :
    loadFields word (n :: rest) g = g ++ [(word, n :: rest)] := by
  have hn : n.isEmpty = false := by
    cases n with
    | nil => exact absurd rfl (hf [] (List.mem_cons_self _ _))
    | cons _ _ => rfl
  have hrest : ∀ m ∈ rest, m ≠ [] := fun m hm => hf m (List.mem_cons_of_mem _ hm)
  simp only [loadFields, hn, Bool.not_false, if_true]
  unfold pushBack
  rw [hg, Option.getD_none, mapSet_absent g word _ hg, loadFields_last word rest hrest g _ hg]
  simp

theorem getlineAll_saveToFile (g : Graph)
    (h : ∀ e ∈ g, '\n' ∉ e.1 ∧ ∀ n ∈ e.2, '\n' ∉ n) :
    getlineAll '\n' (saveToFile g) [] = g.map (fun e => e.1 ++ writeNeighbors e.2) := by
  induction g with
  | nil => simp [saveToFile, getlineAll]
  | cons e rest ih =>
    obtain ⟨k, ns⟩ := e
    have he := h (k, ns) (List.mem_cons_self _ _)
    have hrest : ∀ e ∈ rest, '\n' ∉ e.1 ∧ ∀ n ∈ e.2, '\n' ∉ n :=
      fun e he => h e (List.mem_cons_of_mem _ he)
    have hline : '\n' ∉ k ++ writeNeighbors ns := by
      intro hmem
      rcases List.mem_append.1 hmem with h1 | h1
      · exact he.1 h1
      · rcases mem_writeNeighbors ns _ h1 with h2 | ⟨n, hn, hc⟩
        · exact absurd h2 (by decide)
        · exact he.2 n hn hc
    simp only [saveToFile, List.map_cons]
    rw [getlineAll_append_delim '\n' _ _ hline [], ih hrest, List.nil_append]

theorem loadLine_entry (g : Graph) (k : Str) (ns : List Str)
    (hk : ',' ∉ k) (hns : ∀ n ∈ ns, n ≠ [] ∧ ',' ∉ n) (hg : mapFind g k = none) :
    loadLine g (k ++ writeNeighbors ns) = if ns.isEmpty then g else g ++ [(k, ns)] := by
  unfold loadLine
  rw [getlineAll_fields ns hns k [] hk]
  cases ns with
  | nil =>
    simp only [List.nil_append, List.isEmpty_nil, if_true]
    cases k <;> simp [loadFields]
  | cons n rest =>
    simp only [List.nil_append, List.isEmpty_cons]
    exact loadFields_absent k n rest (fun m hm => (hns m hm).1) g hg

theorem loadLines_entries (g : Graph)
    (hclean : ∀ e ∈ g, ',' ∉ e.1 ∧ ∀ n ∈ e.2, n ≠ [] ∧ ',' ∉ n)
    (hnodup : (g.map Prod.fst).Nodup) :
    ∀ acc : Graph, (∀ e ∈ g, mapFind acc e.1 = none) →
      (g.map (fun e => e.1 ++ writeNeighbors e.2)).foldl loadLine acc =
        acc ++ g.filter (fun e => !e.2.isEmpty) := by
  induction g with
  | nil => intro acc _; simp
  | cons e rest ih =>
    intro acc hacc
    obtain ⟨k, ns⟩ := e
    have he := hclean (k, ns) (List.mem_cons_self _ _)
    have hrest : ∀ e ∈ rest, ',' ∉ e.1 ∧ ∀ n ∈ e.2, n ≠ [] ∧ ',' ∉ n :=
      fun e he => hclean e (List.mem_cons_of_mem _ he)
    rw [List.map_cons, List.nodup_cons] at hnodup
    have hk : mapFind acc k = none := hacc (k, ns) (List.mem_cons_self _ _)
    have hne : ∀ e ∈ rest, k ≠ e.1 := by
      intro e he hke
      exact hnodup.1 (List.mem_map.2 ⟨e, he, hke.symm⟩)
    rw [List.map_cons, List.foldl_cons, loadLine_entry acc k ns he.1 he.2 hk]
    cases ns with
    | nil =>
      simp only [List.isEmpty_nil, if_true]
      rw [ih hrest hnodup.2 acc (fun e he => hacc e (List.mem_cons_of_mem _ he))]
      simp [List.filter]
    | cons n ns1 =>
      simp only [List.isEmpty_cons, Bool.false_eq_true, if_false]
      rw [ih hrest hnodup.2 _ (fun e he =>
        mapFind_append_absent acc k e.1 _ (hacc e (List.mem_cons_of_mem _ he)) (hne e he))]
      simp [List.filter]

theorem mapFind_filter_nodup {α : Type} (g : List (Str × α)) (p : Str × α → Bool)
    (hnodup : (g.map Prod.fst).Nodup) (k : Str) (v : α) (h : mapFind g k = some v) :
    mapFind (g.filter p) k = if p (k, v) then some v else none := by
  induction g with
  | nil => simp [mapFind] at h
  | cons e rest ih =>
    obtain ⟨k0, x⟩ := e
    rw [List.map_cons, List.nodup_cons] at hnodup
    by_cases h0 : k0 = k
    · subst h0
      simp only [mapFind, if_true, Option.some.injEq] at h
      subst h
      have hnone : ∀ (l : List (Str × α)), k0 ∉ l.map Prod.fst → mapFind (l.filter p) k0 = none := by
        intro l
        induction l with
        | nil => intro _; rfl
        | cons e1 l1 ih1 =>
          intro hl
          obtain ⟨k1, x1⟩ := e1
          have hk1 : ¬ k1 = k0 :=
            fun e => hl (List.mem_map.2 ⟨(k1, x1), List.mem_cons_self _ _, e⟩)
          have hl1 : k0 ∉ l1.map Prod.fst :=
            fun hm => hl (by rw [List.map_cons]; exact List.mem_cons_of_mem _ hm)
          by_cases hp : p (k1, x1) = true
          · simp [List.filter, hp, mapFind, hk1, ih1 hl1]
          · simp [List.filter, hp, ih1 hl1]
      by_cases hp : p (k0, x) = true
      · simp [List.filter, hp, mapFind]
      · simp [List.filter, hp, hnone rest hnodup.1]
    · simp only [mapFind, h0, if_false] at h
      by_cases hp : p (k0, x) = true
      · simp [List.filter, hp, mapFind, h0, ih hnodup.2 h]
      · simp [List.filter, hp, ih hnodup.2 h]

/-- C9 as stated fails: a term containing a comma is not reproduced. After
`addEdge("a,b", "c")` the term "c" has the neighbour sequence ["a,b"]; saving and loading
gives "c" the neighbour sequence ["a", "b"]. -/
theorem C9_comma_counterexample :
    neighbours (addEdge [] "a,b".toList "c".toList) "c".toList = ["a,b".toList] ∧
    neighbours (loadFromFile [] (some (saveToFile (addEdge [] "a,b".toList "c".toList))))
      "c".toList = ["a".toList, "b".toList] ∧
    neighbours (loadFromFile [] (some (saveToFile (addEdge [] "a,b".toList "c".toList))))
      "c".toList ≠ neighbours (addEdge [] "a,b".toList "c".toList) "c".toList := by
  decide

/-- C9, amended: for every graph (distinct keys) whose terms and neighbours contain
neither a comma nor a newline and whose neighbours are non-empty strings, writing it with
`saveToFile` and reading the text with `loadFromFile` yields exactly the entries of the
original with a non-empty neighbour sequence, in order; so every term present in the
original has the same neighbour sequence (same terms, order, multiplicity) in the
loaded graph, a term with an empty sequence having no entry there. -/
theorem C9_save_load_roundtrip (g0 g : Graph)
    (hnodup : (g.map Prod.fst).Nodup)
    (hclean : ∀ e ∈ g, ',' ∉ e.1 ∧ '\n' ∉ e.1 ∧
      ∀ n ∈ e.2, n ≠ [] ∧ ',' ∉ n ∧ '\n' ∉ n) :
    loadFromFile g0 (some (saveToFile g)) = g.filter (fun e => !e.2.isEmpty) ∧
    ∀ (term : Str) (ns : List Str), mapFind g term = some ns →
      neighbours (loadFromFile g0 (some (saveToFile g))) term = ns := by
  have e : loadFromFile g0 (some (saveToFile g)) = g.filter (fun e => !e.2.isEmpty) := by
    unfold loadFromFile
    simp only
    rw [getlineAll_saveToFile g (fun e he => ⟨(hclean e he).2.1, fun n hn =>
      ((hclean e he).2.2 n hn).2.2⟩)]
    rw [loadLines_entries g (fun e he => ⟨(hclean e he).1, fun n hn =>
      ⟨((hclean e he).2.2 n hn).1, ((hclean e he).2.2 n hn).2.1⟩⟩) hnodup [] (fun _ _ => rfl)]
    simp
  refine ⟨e, ?_⟩
  intro term ns hfind
  rw [e]
  unfold neighbours
  rw [mapFind_filter_nodup g _ hnodup term ns hfind]
  cases ns <;> simp

/-- Witness of C9 (amended): the graph of `main` after `addEdge("scam", "fraud")`. -/
theorem C9_save_load_roundtrip_witness :
    loadFromFile [] (some (saveToFile (addEdge [] "scam".toList "fraud".toList))) =
      (addEdge [] "scam".toList "fraud".toList).filter (fun e => !e.2.isEmpty) ∧
    ∀ (term : Str) (ns : List Str),
      mapFind (addEdge [] "scam".toList "fraud".toList) term = some ns →
      neighbours (loadFromFile [] (some (saveToFile (addEdge [] "scam".toList "fraud".toList))))
        term = ns :=
  C9_save_load_roundtrip [] (addEdge [] "scam".toList "fraud".toList) (by decide) (by decide)

/-! ## Statistics -/

theorem printTop_eq_take (l : List (Str × Int)) :
    ∀ c : Nat, c < 5 → printTop l (c : Int) = l.take (5 - c) := by
  induction l with
  | nil => intro c _; simp [printTop]
  | cons e rest ih =>
    intro c hc
    by_cases h4 : c = 4
    · subst h4
      simp [printTop]
    · have hlt : c + 1 < 5 := by omega
      have hif : ¬ ((c : Int) + 1 ≥ 5) := by omega
      have e5 : 5 - c = (5 - (c + 1)) + 1 := by omega
      have ih1 := ih (c + 1) hlt
      rw [Nat.cast_add, Nat.cast_one] at ih1
      simp only [printTop, hif, if_false, ih1]
      rw [e5, List.take_succ_cons]

theorem showStatistics_eq_take (sort : List (Str × Int) → List (Str × Int)) (freq : FreqTable) :
    showStatistics sort freq = (sort freq).take 5 := by
  have h := printTop_eq_take (sort freq) 0 (by decide)
  simpa [showStatistics] using h

theorem insertionSortByFreq_contract : StdSortContract freqGreater insertionSortByFreq where
  perm := fun l => List.perm_insertionSort _ l
  ordered := by
    intro l
    haveI : IsTotal (Str × Int) (fun a b => b.2 ≤ a.2) := ⟨fun a b => le_total b.2 a.2⟩
    haveI : IsTrans (Str × Int) (fun a b => b.2 ≤ a.2) := ⟨fun a b c h1 h2 => le_trans h2 h1⟩
    have hs : (insertionSortByFreq l).Pairwise (fun a b => b.2 ≤ a.2) :=
      List.sorted_insertionSort (fun a b : Str × Int => b.2 ≤ a.2) l
    exact hs.imp (fun h => by simpa [freqGreater] using h)

/-- C10: for a sorting routine meeting the contract of `std::sort`, the top-terms listing
of `showStatistics` on a table with `n` terms reports exactly `min(5, n)` terms of the
table (the table is a rearrangement of the reported terms followed by the terms left
out), in non-increasing order of frequency, and no term left out has a strictly higher
frequency than a reported term. When the frequencies are pairwise distinct the reported
terms are strictly descending and strictly above every term left out, that is, they are
exactly the highest ones. -/
theorem C10_showStatistics_top (sort : List (Str × Int) → List (Str × Int))
    (hsort : StdSortContract freqGreater sort) (freq : FreqTable) :
    (showStatistics sort freq).length = min 5 freq.length ∧
    (showStatistics sort freq).Pairwise (fun a b => b.2 ≤ a.2) ∧
    ∃ leftOut : List (Str × Int),
      (showStatistics sort freq ++ leftOut).Perm freq ∧
      (∀ y ∈ leftOut, ∀ x ∈ showStatistics sort freq, y.2 ≤ x.2) ∧
      ((freq.map Prod.snd).Nodup →
        (showStatistics sort freq).Pairwise (fun a b => b.2 < a.2) ∧
        ∀ y ∈ leftOut, ∀ x ∈ showStatistics sort freq, y.2 < x.2) := by
  rw [showStatistics_eq_take]
  have hperm := hsort.perm freq
  have hord : (sort freq).Pairwise (fun a b => b.2 ≤ a.2) :=
    (hsort.ordered freq).imp (fun h => by simpa [freqGreater] using h)
  have hsplit : (sort freq).take 5 ++ (sort freq).drop 5 = sort freq := List.take_append_drop 5 _
  have hord2 := hord
  rw [← hsplit, List.pairwise_append] at hord2
  refine ⟨?_, hord2.1, (sort freq).drop 5, ?_, ?_, ?_⟩
  · rw [List.length_take, hperm.length_eq]
  · rw [hsplit]; exact hperm
  · intro y hy x hx
    exact hord2.2.2 x hx y hy
  · intro hnd
    have hnd2 : (((sort freq).take 5 ++ (sort freq).drop 5).map Prod.snd).Nodup := by
      rw [hsplit]
      exact ((hperm.map Prod.snd).nodup_iff).2 hnd
    rw [List.map_append, List.nodup_append] at hnd2
    constructor
    · have hne : ((sort freq).take 5).Pairwise (fun a b => a.2 ≠ b.2) :=
        List.pairwise_map.1 hnd2.1
      exact (hord2.1.and hne).imp (fun h => lt_of_le_of_ne h.1 (fun e => h.2 e.symm))
    · intro y hy x hx
      have hle := hord2.2.2 x hx y hy
      have hne : x.2 ≠ y.2 := fun e =>
        hnd2.2.2 (List.mem_map_of_mem Prod.snd hx) (by rw [e]; exact List.mem_map_of_mem Prod.snd hy)
      exact lt_of_le_of_ne hle (fun e => hne e.symm)

/-- Witness of C10: on a table of 7 terms with pairwise distinct frequencies, with
insertion sort as the sorting routine, the listing is exactly the 5 highest, sorted
descending. -/
theorem C10_showStatistics_top_witness :
    showStatistics insertionSortByFreq
      [("hate".toList, 3), ("scam".toList, 7), ("fraud".toList, 1), ("racism".toList, 6),
       ("abuse".toList, 2), ("violence".toList, 5), ("bullying".toList, 4)] =
      [("scam".toList, 7), ("racism".toList, 6), ("violence".toList, 5),
       ("bullying".toList, 4), ("hate".toList, 3)] ∧
    (showStatistics insertionSortByFreq
      [("hate".toList, 3), ("scam".toList, 7), ("fraud".toList, 1), ("racism".toList, 6),
       ("abuse".toList, 2), ("violence".toList, 5), ("bullying".toList, 4)]).length = min 5 7 :=
  ⟨by decide,
   (C10_showStatistics_top insertionSortByFreq insertionSortByFreq_contract
      [("hate".toList, 3), ("scam".toList, 7), ("fraud".toList, 1), ("racism".toList, 6),
       ("abuse".toList, 2), ("violence".toList, 5), ("bullying".toList, 4)]).1⟩

/-! ## Depth zero, idempotent insertion, symmetric edges -/

/-- C15: for every graph and every start term `x`, `getRelatedWords(x, 0)` returns the
empty sequence (and leaves the adjacency list as it was). -/
theorem C15_getRelatedWords_zero (g : Graph) (x : Str) :
    getRelatedWords g x 0 = some ([], g) := by
  simp [getRelatedWords, bfsFuel, bfsLoop, bfsStep]

theorem mapSet_mapSet_same {κ : Type} [DecidableEq κ] {α : Type}
    (m : List (κ × α)) (k : κ) (v v1 : α) : mapSet (mapSet m k v) k v1 = mapSet m k v1 := by
  induction m with
  | nil => simp [mapSet]
  | cons p rest ih =>
    obtain ⟨k0, x⟩ := p
    by_cases h : k0 = k
    · simp [mapSet, h]
    · simp [mapSet, h, ih]

theorem insertFrom_idem (whole : Str) (w : Str) :
    ∀ t : TrieNode, insertFrom whole w (insertFrom whole w t) = insertFrom whole w t := by
  induction w with
  | nil =>
    intro t
    obtain ⟨ch, e, x⟩ := t
    simp [insertFrom]
  | cons c cs ih =>
    intro t
    obtain ⟨ch, e, x⟩ := t
    cases hfind : mapFind ch c with
    | none =>
      simp only [insertFrom, hfind, mapFind_mapSet_same, ih, mapSet_mapSet_same]
    | some child =>
      simp only [insertFrom, hfind, mapFind_mapSet_same, ih, mapSet_mapSet_same]

/-- C16: `insertWord` is idempotent: the Trie after `insertWord(w)` twice is equal, node
for node (children, complete-word flags and stored words), to the Trie after a single
`insertWord(w)`. -/
theorem C16_insertWord_idempotent (root : TrieNode) (w : Str) :
    insertWord (insertWord root w) w = insertWord root w :=
  insertFrom_idem w w root

theorem neighbours_addEdge (g : Graph) (a b u : Str) :
    neighbours (addEdge g a b) u =
      neighbours g u ++ (if u = a then [b] else []) ++ (if u = b then [a] else []) := by
  unfold addEdge
  by_cases hb : u = b
  · subst hb
    rw [neighbours_pushBack_same]
    by_cases ha : u = a
    · subst ha
      rw [neighbours_pushBack_same]
      simp
    · rw [neighbours_pushBack_other _ _ _ _ (fun e => ha e.symm)]
      simp [ha]
  · rw [neighbours_pushBack_other _ _ _ _ (fun e => hb e.symm)]
    by_cases ha : u = a
    · subst ha
      rw [neighbours_pushBack_same]
      simp [hb]
    · rw [neighbours_pushBack_other _ _ _ _ (fun e => ha e.symm)]
      simp [ha, hb]

theorem graphReachable_symmetric (g : Graph) (h : GraphReachable g) (a b : Str) :
    (neighbours g a).count b = (neighbours g b).count a := by
  induction h with
  | empty => simp [neighbours, mapFind]
  | edge g x y _ ih =>
    rw [neighbours_addEdge, neighbours_addEdge]
    simp only [List.count_append, ih]
    by_cases h1 : a = x <;> by_cases h2 : a = y <;> by_cases h3 : b = x <;> by_cases h4 : b = y <;>
      simp [h1, h2, h3, h4, List.count_cons, List.count_nil] <;> (try subst_vars) <;> simp_all
  | related g g1 st d r _ hrel ih =>
    obtain ⟨r1, g2, h1, _, _, _, hent⟩ := getRelatedWords_spec g st d
    rw [hrel] at h1
    simp only [Option.some.injEq, Prod.mk.injEq] at h1
    rw [← h1.2] at hent
    rw [neighbours_of_entries g1 g a (hent a), neighbours_of_entries g1 g b (hent b)]
    exact ih

/-- C19: in every graph reached from the empty graph by `addEdge` calls, interleaved
with any `getRelatedWords` calls, edges are symmetric: the number of occurrences of `b`
in the neighbour sequence of `a` equals the number of occurrences of `a` in that of `b`;
and a single `addEdge(a, b)` appends `b` at the end of the sequence of `a` and `a` at the
end of the sequence of `b`, leaving the sequence of every other term unchanged. -/
theorem C19_edges_symmetric (g : Graph) (a b : Str) :
    (GraphReachable g → (neighbours g a).count b = (neighbours g b).count a) ∧
    (∀ u, neighbours (addEdge g a b) u =
      neighbours g u ++ (if u = a then [b] else []) ++ (if u = b then [a] else [])) ∧
    (∀ u, u ≠ a → u ≠ b → neighbours (addEdge g a b) u = neighbours g u) :=
  ⟨fun h => graphReachable_symmetric g h a b, neighbours_addEdge g a b,
    fun u ha hb => by rw [neighbours_addEdge]; simp [ha, hb]⟩

/-- Witness of C19: the graph of `main` after its first two edges, with a traversal in
between, is reached; "hate" and "racism" list each other once, and "scam" is untouched
by `addEdge("hate", "discrimination")`. -/
theorem C19_edges_symmetric_witness :
    GraphReachable (addEdge [] "hate".toList "racism".toList) ∧
    (neighbours (addEdge [] "hate".toList "racism".toList) "hate".toList).count
        "racism".toList =
      (neighbours (addEdge [] "hate".toList "racism".toList) "racism".toList).count
        "hate".toList ∧
    neighbours (addEdge (addEdge [] "hate".toList "racism".toList) "hate".toList
        "discrimination".toList) "scam".toList =
      neighbours (addEdge [] "hate".toList "racism".toList) "scam".toList :=
  have hr : GraphReachable (addEdge [] "hate".toList "racism".toList) :=
    GraphReachable.edge [] _ _ GraphReachable.empty
  ⟨hr,
   (C19_edges_symmetric (addEdge [] "hate".toList "racism".toList) "hate".toList
      "racism".toList).1 hr,
   (C19_edges_symmetric (addEdge [] "hate".toList "racism".toList) "hate".toList
      "discrimination".toList).2.2 "scam".toList (by decide) (by decide)⟩

/-- C13 fails on the code: on the empty graph the call `getRelatedWords("spam", 2)`
creates an entry for "spam" (the access `adjacencyList[currentWord]`), so afterwards
`visualizeConnections("spam")` lists an empty connection line instead of giving the
"No connections found" indicator, although no edge was ever added. -/
theorem C13_unknown_term_listed :
    getRelatedWords [] "spam".toList 2 = some ([], [("spam".toList, [])]) ∧
    GraphReachable [("spam".toList, [])] ∧
    visualizeConnections [("spam".toList, [])] "spam".toList =
      (some [], [("spam".toList, [])]) ∧
    (visualizeConnections [] "spam".toList).1 = none := by
  have e : getRelatedWords [] "spam".toList 2 = some ([], [("spam".toList, [])]) := by decide
  exact ⟨e, GraphReachable.related [] _ "spam".toList 2 [] GraphReachable.empty e,
    by decide, by decide⟩

/-! ## Adding and loading banned words -/

theorem toNat_tolower_upper (c : Char) (h : 65 ≤ c.toNat ∧ c.toNat ≤ 90) :
    (tolower c).toNat = c.toNat + 32 := by
  unfold tolower
  rw [if_pos h]
  have hv : (c.toNat + 32).isValidChar := by
    left
    omega
  simp only [Char.ofNat, Char.toNat, Char.ofNatAux]
  simp only [Char.toNat] at h hv
  rw [dif_pos hv]
  simp [UInt32.toNat]

theorem isspace_tolower (c : Char) : isspace (tolower c) = isspace c := by
  by_cases h : 65 ≤ c.toNat ∧ c.toNat ≤ 90
  · have e := toNat_tolower_upper c h
    have h1 : isspace (tolower c) = false := by
      simp only [isspace, e]
      simp only [Bool.or_eq_false_iff, decide_eq_false_iff_not, Bool.and_eq_false_imp,
        decide_eq_true_eq]
      omega
    have h2 : isspace c = false := by
      simp only [isspace]
      simp only [Bool.or_eq_false_iff, decide_eq_false_iff_not, Bool.and_eq_false_imp,
        decide_eq_true_eq]
      omega
    rw [h1, h2]
  · simp [tolower, h]

theorem ispunct_tolower (c : Char) : ispunct (tolower c) = ispunct c := by
  by_cases h : 65 ≤ c.toNat ∧ c.toNat ≤ 90
  · have e := toNat_tolower_upper c h
    have h1 : ispunct (tolower c) = false := by
      simp only [ispunct, e]
      simp only [Bool.or_eq_false_iff, Bool.and_eq_false_imp, decide_eq_false_iff_not,
        decide_eq_true_eq]
      omega
    have h2 : ispunct c = false := by
      simp only [ispunct]
      simp only [Bool.or_eq_false_iff, Bool.and_eq_false_imp, decide_eq_false_iff_not,
        decide_eq_true_eq]
      omega
    rw [h1, h2]
  · simp [tolower, h]

theorem extractWords_skip_spaces (a r : Str) (ha : ∀ c ∈ a, isspace c = true) :
    extractWords (a ++ r) [] = extractWords r [] := by
  induction a with
  | nil => rfl
  | cons c cs ih =>
    have hc : isspace c = true := ha c (List.mem_cons_self _ _)
    have hcs : ∀ x ∈ cs, isspace x = true := fun x hx => ha x (List.mem_cons_of_mem _ hx)
    simp [extractWords, hc, ih hcs]

theorem extractWords_read_word (a r : Str) (ha : ∀ c ∈ a, isspace c = false) :
    ∀ acc : Str, extractWords (a ++ r) acc = extractWords r (acc ++ a) := by
  induction a with
  | nil => intro acc; simp
  | cons c cs ih =>
    intro acc
    have hc : isspace c = false := ha c (List.mem_cons_self _ _)
    have hcs : ∀ x ∈ cs, isspace x = false := fun x hx => ha x (List.mem_cons_of_mem _ hx)
    rw [List.cons_append]
    simp only [extractWords, hc, Bool.false_eq_true, if_false]
    rw [ih hcs, List.append_assoc, List.singleton_append]

theorem extractWords_trailing_spaces (a acc : Str) (ha : ∀ c ∈ a, isspace c = true)
    (hacc : acc ≠ []) : extractWords a acc = [acc] := by
  have he : acc.isEmpty = false := by
    cases acc with
    | nil => exact absurd rfl hacc
    | cons _ _ => rfl
  cases a with
  | nil => simp [extractWords, he]
  | cons c cs =>
    have hc : isspace c = true := ha c (List.mem_cons_self _ _)
    have hcs : ∀ x ∈ cs, isspace x = true := fun x hx => ha x (List.mem_cons_of_mem _ hx)
    have h0 := extractWords_skip_spaces cs [] hcs
    rw [List.append_nil] at h0
    simp [extractWords, hc, he, h0]

theorem extractWords_single (pre word post : Str)
    (hpre : ∀ c ∈ pre, isspace c = true) (hpost : ∀ c ∈ post, isspace c = true)
    (hword : ∀ c ∈ word, isspace c = false) (hne : word ≠ []) :
    extractWords (pre ++ word ++ post) [] = [word] := by
  rw [List.append_assoc, extractWords_skip_spaces pre _ hpre,
    extractWords_read_word word post hword [], List.nil_append,
    extractWords_trailing_spaces post word hpost hne]

/-- C11: for every engine state and every non-empty word `w` without whitespace and
punctuation characters, after `addBannedWord(w)` the Trie contains the lowercased `w`, and
`flagContent` on a text whose only token is `w` written in any letter case (`written`,
possibly surrounded by whitespace) returns true with matched-word list `[lowercase(w)]`:
the counter of that word is incremented and the log gains the entry
(text, `[lowercase(w)]`). -/
theorem C11_addBannedWord_flags (s : ContentModerationSystem) (w written pre post : Str)
    (hne : w ≠ []) (hspace : ∀ c ∈ w, isspace c = false) (hpunct : ∀ c ∈ w, ispunct c = false)
    (hcase : written.map tolower = w.map tolower)
    (hpre : ∀ c ∈ pre, isspace c = true) (hpost : ∀ c ∈ post, isspace c = true) :
    searchWord (addBannedWord s.root w) (w.map tolower) = true ∧
    searchFlaggedWords (addBannedWord s.root w) s.flaggedTermsFrequency (pre ++ written ++ post) =
      ([w.map tolower], incrementCounter s.flaggedTermsFrequency (w.map tolower)) ∧
    flagContent { s with root := addBannedWord s.root w } (pre ++ written ++ post) =
      (true, { s with
        root := addBannedWord s.root w,
        flaggedTermsFrequency := incrementCounter s.flaggedTermsFrequency (w.map tolower),
        flaggedContent := s.flaggedContent ++ [(pre ++ written ++ post, [w.map tolower])] }) := by
  have hfound : searchWord (addBannedWord s.root w) (w.map tolower) = true := by
    simp [addBannedWord, searchWord_insertWord]
  have hlne : w.map tolower ≠ [] := by
    intro h
    exact hne (List.map_eq_nil_iff.1 h)
  have hlspace : ∀ c ∈ w.map tolower, isspace c = false := by
    intro c hc
    obtain ⟨x, hx, e⟩ := List.mem_map.1 hc
    rw [← e, isspace_tolower]
    exact hspace x hx
  have hlpunct : removePunct (w.map tolower) = w.map tolower := by
    unfold removePunct
    apply List.filter_eq_self.2
    intro c hc
    obtain ⟨x, hx, e⟩ := List.mem_map.1 hc
    rw [← e, ispunct_tolower, hpunct x hx]
    rfl
  have hpre1 : ∀ c ∈ pre.map tolower, isspace c = true := by
    intro c hc
    obtain ⟨x, hx, e⟩ := List.mem_map.1 hc
    rw [← e, isspace_tolower]
    exact hpre x hx
  have hpost1 : ∀ c ∈ post.map tolower, isspace c = true := by
    intro c hc
    obtain ⟨x, hx, e⟩ := List.mem_map.1 hc
    rw [← e, isspace_tolower]
    exact hpost x hx
  have htok : extractWords ((pre ++ written ++ post).map tolower) [] = [w.map tolower] := by
    rw [List.map_append, List.map_append, hcase]
    exact extractWords_single _ _ _ hpre1 hpost1 hlspace hlne
  have hsearch : searchFlaggedWords (addBannedWord s.root w) s.flaggedTermsFrequency
      (pre ++ written ++ post) =
      ([w.map tolower], incrementCounter s.flaggedTermsFrequency (w.map tolower)) := by
    unfold searchFlaggedWords
    simp only [htok, searchFlaggedLoop, hlpunct, hfound, if_true, List.nil_append]
  refine ⟨hfound, hsearch, ?_⟩
  unfold flagContent
  simp only [hsearch]
  simp

/-- Witness of C11: after `addBannedWord("Spam")` on the sample system, the text
" SPAM\n" (the word in upper case between whitespace) is matched as ["spam"]. -/
theorem C11_addBannedWord_flags_witness :
    "Spam".toList.map tolower = "spam".toList ∧
    searchWord (addBannedWord sampleSystem.root "Spam".toList) ("Spam".toList.map tolower) =
      true ∧
    searchFlaggedWords (addBannedWord sampleSystem.root "Spam".toList)
        sampleSystem.flaggedTermsFrequency (" ".toList ++ "SPAM".toList ++ "\n".toList) =
      (["Spam".toList.map tolower],
        incrementCounter sampleSystem.flaggedTermsFrequency ("Spam".toList.map tolower)) :=
  have h := C11_addBannedWord_flags sampleSystem "Spam".toList "SPAM".toList " ".toList
    "\n".toList (by decide) (by decide) (by decide) (by decide) (by decide) (by decide)
  ⟨by decide, h.1, h.2.1⟩

theorem searchWord_loadBannedLine (root : TrieNode) (line v : Str) :
    searchWord (loadBannedLine root line) v = true ↔
      searchWord root v = true ∨
        (line.filter (fun c => !isspace c) ≠ [] ∧
          v = (line.filter (fun c => !isspace c)).map tolower) := by
  unfold loadBannedLine
  cases hs : line.filter (fun c => !isspace c) with
  | nil => simp
  | cons c cs =>
    simp only [List.isEmpty_cons, Bool.not_false, if_true, searchWord_insertWord,
      Bool.or_eq_true, decide_eq_true_eq]
    constructor
    · rintro (h | h)
      · right; exact ⟨List.cons_ne_nil _ _, h⟩
      · left; exact h
    · rintro (h | ⟨_, h⟩)
      · right; exact h
      · left; exact h

theorem searchWord_loadBannedLines (lines : List Str) :
    ∀ (root : TrieNode) (v : Str),
      searchWord (lines.foldl loadBannedLine root) v = true ↔
        searchWord root v = true ∨
          ∃ line ∈ lines, line.filter (fun c => !isspace c) ≠ [] ∧
            v = (line.filter (fun c => !isspace c)).map tolower := by
  induction lines with
  | nil => intro root v; simp
  | cons line rest ih =>
    intro root v
    rw [List.foldl_cons, ih, searchWord_loadBannedLine]
    constructor
    · rintro ((h | h) | ⟨l, hl, h⟩)
      · left; exact h
      · right; exact ⟨line, List.mem_cons_self _ _, h⟩
      · right; exact ⟨l, List.mem_cons_of_mem _ hl, h⟩
    · rintro (h | ⟨l, hl, h⟩)
      · left; left; exact h
      · rcases List.mem_cons.1 hl with e | e
        · left; right; rw [← e]; exact h
        · right; exact ⟨l, e, h⟩

/-- C12: for every Trie and every readable source, after `loadBannedWords` the Trie
contains exactly the words it contained before together with, for each line that is
non-empty once all whitespace characters are removed, that line with whitespace removed
and letters lowercased. Lines that are empty or only whitespace insert nothing, so
loading never inserts the empty word. The same holds for the line loop run on any list
of lines. -/
theorem C12_loadBannedWords_contents (root : TrieNode) (text : Str) (lines : List Str)
    (v : Str) :
    (searchWord (loadBannedWords root (some text)) v = true ↔
      searchWord root v = true ∨
        ∃ line ∈ getlineAll '\n' text [], line.filter (fun c => !isspace c) ≠ [] ∧
          v = (line.filter (fun c => !isspace c)).map tolower) ∧
    (searchWord (lines.foldl loadBannedLine root) v = true ↔
      searchWord root v = true ∨
        ∃ line ∈ lines, line.filter (fun c => !isspace c) ≠ [] ∧
          v = (line.filter (fun c => !isspace c)).map tolower) ∧
    searchWord (loadBannedWords root (some text)) [] = searchWord root [] ∧
    searchWord (lines.foldl loadBannedLine root) [] = searchWord root [] ∧
    ((∀ line ∈ lines, line.filter (fun c => !isspace c) = []) →
      lines.foldl loadBannedLine root = root) := by
  have hempty : ∀ ls : List Str,
      searchWord (ls.foldl loadBannedLine root) [] = searchWord root [] := by
    intro ls
    have h := searchWord_loadBannedLines ls root []
    have hno : ¬ ∃ line ∈ ls, line.filter (fun c => !isspace c) ≠ [] ∧
        ([] : Str) = (line.filter (fun c => !isspace c)).map tolower := by
      rintro ⟨l, _, hne, he⟩
      exact hne (List.map_eq_nil_iff.1 he.symm)
    cases h1 : searchWord (ls.foldl loadBannedLine root) [] with
    | true =>
      rcases h.1 h1 with h2 | h2
      · exact h2.symm
      · exact absurd h2 hno
    | false =>
      cases h2 : searchWord root [] with
      | true => rw [h.2 (Or.inl h2)] at h1; exact h1.symm
      | false => rfl
  refine ⟨searchWord_loadBannedLines _ root v, searchWord_loadBannedLines lines root v,
    hempty _, hempty lines, ?_⟩
  intro hall
  clear hempty
  induction lines generalizing root with
  | nil => rfl
  | cons line rest ih =>
    have h1 : loadBannedLine root line = root := by
      unfold loadBannedLine
      simp [hall line (List.mem_cons_self _ _)]
    rw [List.foldl_cons, h1]
    exact ih root (fun l hl => hall l (List.mem_cons_of_mem _ hl))

/-- Witness of C12: loading the lines "Scam " and "  " into the empty Trie inserts "scam"
and nothing for the blank line. -/
theorem C12_loadBannedWords_contents_witness :
    searchWord (loadBannedWords TrieNode.new (some "Scam \n  \n".toList)) "scam".toList = true ∧
    (["  ".toList].foldl loadBannedLine TrieNode.new = TrieNode.new) :=
  ⟨by decide,
   (C12_loadBannedWords_contents TrieNode.new [] ["  ".toList] []).2.2.2.2 (by decide)⟩

/-! ## Loading a graph file -/

theorem mapFind_pushBack (g : Graph) (k x w : Str) :
    mapFind (pushBack g k x) w =
      if k = w then some ((mapFind g w).getD [] ++ [x]) else mapFind g w := by
  unfold pushBack
  by_cases h : k = w
  · subst h
    simp [mapFind_mapSet_same]
  · simp [mapFind_mapSet_other _ _ _ _ h, h]

theorem mapFind_loadFields (word w : Str) (fields : List Str) :
    ∀ g : Graph, mapFind (loadFields word fields g) w =
      if (if word = w then fields.filter (fun f => !f.isEmpty) else []) = [] then mapFind g w
      else some ((mapFind g w).getD [] ++
        (if word = w then fields.filter (fun f => !f.isEmpty) else [])) := by
  induction fields with
  | nil => intro g; simp [loadFields]
  | cons f rest ih =>
    intro g
    by_cases hw : word = w
    · subst hw
      cases f with
      | nil =>
        have := ih g
        simp only [if_true] at this
        simp only [loadFields, List.isEmpty_nil, Bool.not_true, Bool.false_eq_true, if_false,
          if_true, List.filter_cons_of_neg, not_false_eq_true, this]
      | cons c cs =>
        have := ih (pushBack g word (c :: cs))
        simp only [if_true] at this
        simp only [loadFields, List.isEmpty_cons, Bool.not_false, if_true, this,
          mapFind_pushBack, List.filter_cons_of_pos, Option.getD_some]
        by_cases hr : rest.filter (fun f => !f.isEmpty) = []
        · simp [hr]
        · simp [hr]
    · have := ih g
      have h2 := ih (pushBack g word f)
      simp only [hw, if_false, if_true] at this h2
      cases f with
      | nil => simp [loadFields, hw, this]
      | cons c cs => simp [loadFields, hw, h2, mapFind_pushBack]

theorem mapFind_loadLines (w : Str) (lines : List Str) :
    ∀ g : Graph, mapFind (lines.foldl loadLine g) w =
      if listedNeighbours w lines = [] then mapFind g w
      else some ((mapFind g w).getD [] ++ listedNeighbours w lines) := by
  induction lines with
  | nil => intro g; simp [listedNeighbours]
  | cons line rest ih =>
    intro g
    rw [List.foldl_cons, ih]
    unfold loadLine
    cases hl : getlineAll ',' line [] with
    | nil => simp [listedNeighbours, hl]
    | cons first fields =>
      simp only [listedNeighbours, hl, mapFind_loadFields]
      by_cases h1 : (if first = w then fields.filter (fun f => !f.isEmpty) else []) = []
      · simp [h1]
      · by_cases h2 : listedNeighbours w rest = []
        · simp [h1, h2]
        · simp [h1, h2]

/-- C14: `Graph::loadFromFile` leaves the adjacency mapping exactly unchanged when the
file cannot be opened; when the file opens, the resulting mapping does not depend on the
prior state (it is the one obtained from the empty mapping), a term has an entry exactly
when some line with that first field lists a non-empty following field, and its neighbour
sequence is then the non-empty following fields of those lines, in order; no reverse
edges are added (the file "a,b" gives "b" no entry). -/
theorem C14_loadFromFile_replaces (g : Graph) (text : Str) (w : Str) :
    loadFromFile g none = g ∧
    loadFromFile g (some text) = loadFromFile [] (some text) ∧
    mapFind (loadFromFile g (some text)) w =
      (if listedNeighbours w (getlineAll '\n' text []) = [] then none
       else some (listedNeighbours w (getlineAll '\n' text []))) ∧
    neighbours (loadFromFile g (some text)) w = listedNeighbours w (getlineAll '\n' text []) ∧
    loadFromFile g (some "a,b\n".toList) = [("a".toList, ["b".toList])] := by
  have h := mapFind_loadLines w (getlineAll '\n' text []) []
  have h1 : mapFind (loadFromFile g (some text)) w =
      (if listedNeighbours w (getlineAll '\n' text []) = [] then none
       else some (listedNeighbours w (getlineAll '\n' text []))) := by
    unfold loadFromFile
    simp only [h]
    simp [mapFind]
  have h3 : loadFromFile [] (some "a,b\n".toList) = [("a".toList, ["b".toList])] := by
    decide
  refine ⟨rfl, rfl, h1, ?_, h3⟩
  unfold neighbours
  rw [h1]
  by_cases h2 : listedNeighbours w (getlineAll '\n' text []) = []
  · simp [h2]
  · simp [h2]

/-! ## The analysis report -/

theorem bfsLoop_fuel_mono (maxDepth : Int) (n : Nat) :
    ∀ (s r : BfsState), bfsLoop maxDepth n s = some r →
      ∀ k, bfsLoop maxDepth (n + k) s = some r := by
  induction n with
  | zero => intro s r h; simp [bfsLoop] at h
  | succ n ih =>
    intro s r h k
    have e : n + 1 + k = (n + k) + 1 := by omega
    rw [e]
    by_cases hq : s.queue.isEmpty = true
    · simp only [bfsLoop, hq, if_true] at h ⊢
      exact h
    · simp only [bfsLoop, hq] at h ⊢
      exact ih _ r h k

theorem bfsStep_congr (maxDepth : Int) (s t : BfsState)
    (hv : s.visited = t.visited) (hq : s.queue = t.queue)
    (hr : s.relatedWords = t.relatedWords)
    (hn : ∀ u, neighbours s.adjacencyList u = neighbours t.adjacencyList u) :
    (bfsStep maxDepth s).visited = (bfsStep maxDepth t).visited ∧
    (bfsStep maxDepth s).queue = (bfsStep maxDepth t).queue ∧
    (bfsStep maxDepth s).relatedWords = (bfsStep maxDepth t).relatedWords ∧
    ∀ u, neighbours (bfsStep maxDepth s).adjacencyList u =
      neighbours (bfsStep maxDepth t).adjacencyList u := by
  obtain ⟨g, visited, queue, out⟩ := s
  obtain ⟨g1, visited1, queue1, out1⟩ := t
  simp only at hv hq hr hn
  subst hv hq hr
  cases queue with
  | nil => exact ⟨rfl, rfl, rfl, hn⟩
  | cons p rest =>
    obtain ⟨w, d⟩ := p
    by_cases hd : d < maxDepth
    · simp only [bfsStep, hd, if_true, neighbours_mapTouch, hn w]
      exact ⟨trivial, trivial, trivial, hn⟩
    · simp only [bfsStep, hd, if_false]
      exact ⟨trivial, trivial, trivial, hn⟩

theorem bfsLoop_congr (maxDepth : Int) (n : Nat) :
    ∀ (s t r : BfsState), s.visited = t.visited → s.queue = t.queue →
      s.relatedWords = t.relatedWords →
      (∀ u, neighbours s.adjacencyList u = neighbours t.adjacencyList u) →
      bfsLoop maxDepth n s = some r →
      ∃ r1, bfsLoop maxDepth n t = some r1 ∧ r.relatedWords = r1.relatedWords ∧
        ∀ u, neighbours r.adjacencyList u = neighbours r1.adjacencyList u := by
  induction n with
  | zero => intro s t r _ _ _ _ h; simp [bfsLoop] at h
  | succ n ih =>
    intro s t r hv hq hr hn h
    by_cases he : s.queue.isEmpty = true
    · have he1 : t.queue.isEmpty = true := by rw [← hq]; exact he
      simp only [bfsLoop, he, if_true, Option.some.injEq] at h
      refine ⟨t, by simp [bfsLoop, he1], ?_, ?_⟩
      · rw [← h]; exact hr
      · rw [← h]; exact hn
    · have he1 : ¬ t.queue.isEmpty = true := by rw [← hq]; exact he
      simp only [bfsLoop, he] at h
      obtain ⟨h1, h2, h3, h4⟩ := bfsStep_congr maxDepth s t hv hq hr hn
      obtain ⟨r1, hr1, hr2, hr3⟩ := ih _ _ r h1 h2 h3 h4 h
      exact ⟨r1, by simp only [bfsLoop, he1]; exact hr1, hr2, hr3⟩

theorem getRelatedWords_congr (g g1 : Graph) (start : Str) (maxDepth : Int)
    (h : ∀ u, neighbours g1 u = neighbours g u) :
    (getRelatedWords g1 start maxDepth).map Prod.fst =
      (getRelatedWords g start maxDepth).map Prod.fst := by
  obtain ⟨s, _, hs, _, _⟩ :=
    bfsLoop_terminates g start maxDepth (bfsFuel g) [] _ (bfsInv_init g start maxDepth)
      (by simp [bfsFuel])
  obtain ⟨s1, _, hs1, _, _⟩ :=
    bfsLoop_terminates g1 start maxDepth (bfsFuel g1) [] _ (bfsInv_init g1 start maxDepth)
      (by simp [bfsFuel])
  have hm := bfsLoop_fuel_mono maxDepth _ _ _ hs (bfsFuel g1)
  have hm1 := bfsLoop_fuel_mono maxDepth _ _ _ hs1 (bfsFuel g)
  obtain ⟨r1, hr1, hr2, _⟩ := bfsLoop_congr maxDepth _
    { adjacencyList := g, visited := [start], queue := [(start, 0)], relatedWords := [] }
    { adjacencyList := g1, visited := [start], queue := [(start, 0)], relatedWords := [] } s
    rfl rfl rfl (fun u => (h u).symm) hm
  rw [Nat.add_comm, hm1] at hr1
  simp only [Option.some.injEq] at hr1
  simp only [getRelatedWords, hs, hs1, Option.map_some']
  rw [hr2, hr1]

theorem counter_mapTouch (freq : FreqTable) (k w : Str) :
    counter (mapTouch freq k 0) w = counter freq w := by
  unfold counter
  rcases mapFind_mapTouch freq k w 0 with h | ⟨h1, h2⟩
  · rw [h]
  · rw [h1, h2]; rfl

theorem processTerms_spec (terms : List Str) :
    ∀ (freq : FreqTable) (g : Graph),
      ∃ (report : List (Str × Int × List Str)) (freq1 : FreqTable) (g1 : Graph),
        processTerms terms freq g = some (report, freq1, g1) ∧
        report.map (fun e => e.1) = terms ∧
        (∀ e ∈ report, e.2.1 = counter freq e.1 ∧
          (getRelatedWords g e.1 2).map Prod.fst = some e.2.2) ∧
        (∀ w, counter freq1 w = counter freq w) ∧
        (∀ u, neighbours g1 u = neighbours g u) := by
  induction terms with
  | nil =>
    intro freq g
    exact ⟨[], freq, g, rfl, rfl, by simp, fun _ => rfl, fun _ => rfl⟩
  | cons term rest ih =>
    intro freq g
    obtain ⟨related, g1, hrel, _, _, _, hent⟩ := getRelatedWords_spec g term 2
    have hnb : ∀ u, neighbours g1 u = neighbours g u :=
      fun u => neighbours_of_entries g1 g u (hent u)
    obtain ⟨report, freq2, g2, hp, hmap, hrep, hcnt, hg2⟩ := ih (mapTouch freq term 0) g1
    refine ⟨(term, counter (mapTouch freq term 0) term, related) :: report, freq2, g2,
      ?_, ?_, ?_, ?_, ?_⟩
    · simp only [processTerms, hrel, hp]
    · simp [hmap]
    · intro e he
      rcases List.mem_cons.1 he with e1 | e1
      · rw [e1]
        exact ⟨counter_mapTouch freq term term, by rw [hrel]; rfl⟩
      · obtain ⟨h1, h2⟩ := hrep e e1
        refine ⟨by rw [h1, counter_mapTouch], ?_⟩
        rw [← h2]
        exact (getRelatedWords_congr g g1 e.1 2 hnb).symm
    · intro w
      rw [hcnt w, counter_mapTouch]
    · intro u
      rw [hg2 u, hnb u]

/-- C18 as stated fails for a counter at the top of the `int` range: with "scam" banned
and its counter at 2147483647, `processContent("scam")` reports "scam" with the counter
-2147483648, not with 2147483647 + 1. -/
theorem C18_overflow_counterexample :
    (processContent
      { sampleSystem with flaggedTermsFrequency := [("scam".toList, 2147483647)] }
      "scam".toList).map Prod.fst = some (some [("scam".toList, -2147483648, [])]) ∧
    counter [("scam".toList, 2147483647)] "scam".toList +
        (((searchFlaggedWords sampleSystem.root [("scam".toList, 2147483647)]
          "scam".toList).1.count "scam".toList : Nat) : Int) = 2147483648 := by
  decide

/-- C18, amended: for a text that is flagged, `processContent` reports the matched words
of this text in order, each matched word `w` paired with (i) its cumulative counter after
all matches of this text have been counted, that is its prior value plus the number of
occurrences of `w` among the matches reduced to the 32-bit `int` range, which is exactly
that sum whenever the sum does not exceed 2147483647, and (ii) the sequence
`getRelatedWords(w, 2)` of the relationship graph; for a text that is not flagged it
reports the approved status and no terms. -/
theorem C18_processContent_report (s : ContentModerationSystem) (content : Str) :
    ((searchFlaggedWords s.root s.flaggedTermsFrequency content).1 ≠ [] →
      ∃ (report : List (Str × Int × List Str)) (s1 : ContentModerationSystem),
        processContent s content = some (some report, s1) ∧
        report.map (fun e => e.1) =
          (searchFlaggedWords s.root s.flaggedTermsFrequency content).1 ∧
        ∀ e ∈ report,
          e.2.1 = wrapInt32 (counter s.flaggedTermsFrequency e.1 +
            (((searchFlaggedWords s.root s.flaggedTermsFrequency content).1.count e.1 : Nat) :
              Int)) ∧
          (-2147483648 ≤ counter s.flaggedTermsFrequency e.1 →
            counter s.flaggedTermsFrequency e.1 +
              (((searchFlaggedWords s.root s.flaggedTermsFrequency content).1.count e.1 : Nat) :
                Int) ≤ 2147483647 →
            e.2.1 = counter s.flaggedTermsFrequency e.1 +
              (((searchFlaggedWords s.root s.flaggedTermsFrequency content).1.count e.1 : Nat) :
                Int)) ∧
          (getRelatedWords s.termRelationships e.1 2).map Prod.fst = some e.2.2) ∧
    ((searchFlaggedWords s.root s.flaggedTermsFrequency content).1 = [] →
      ∃ s1 : ContentModerationSystem, processContent s content = some (none, s1)) := by
  constructor
  · intro hm
    obtain ⟨report, freq1, g1, hp, hmap, hrep, _, _⟩ :=
      processTerms_spec (searchFlaggedWords s.root s.flaggedTermsFrequency content).1
        (searchFlaggedWords s.root s.flaggedTermsFrequency content).2 s.termRelationships
    refine ⟨report,
      { root := s.root, termRelationships := g1, flaggedTermsFrequency := freq1,
        flaggedContent := s.flaggedContent ++
          [(content, (searchFlaggedWords s.root s.flaggedTermsFrequency content).1)] },
      ?_, hmap, ?_⟩
    · unfold processContent
      simp only [flagContent_flagged s content hm, if_true, List.getLast?_append,
        List.getLast?_singleton, Option.or_some, hp]
    · intro e he
      obtain ⟨h1, h2⟩ := hrep e he
      have hmem : e.1 ∈ (searchFlaggedWords s.root s.flaggedTermsFrequency content).1 := by
        rw [← hmap]
        exact List.mem_map.2 ⟨e, he, rfl⟩
      have hpos : ¬ (searchFlaggedWords s.root s.flaggedTermsFrequency content).1.count e.1 = 0 := by
        have := List.count_pos_iff.2 hmem
        omega
      refine ⟨?_, ?_, h2⟩
      · rw [h1, (searchFlaggedWords_spec s.root s.flaggedTermsFrequency content).2, if_neg hpos]
      · intro hlow hhigh
        rw [h1]
        exact searchFlaggedWords_counter_exact s.root s.flaggedTermsFrequency content e.1 hlow
          hhigh
  · intro hm
    refine ⟨{ s with flaggedTermsFrequency :=
      (searchFlaggedWords s.root s.flaggedTermsFrequency content).2 }, ?_⟩
    unfold processContent
    simp only [flagContent_clean s content hm, Bool.false_eq_true, if_false]

/-- Witness of C18: with "scam" banned and the edge ("scam", "fraud"), the text
"This is a SCAM!!" is reported as the one term "scam" with counter 1 and related terms
["fraud"]; "hello world" is approved. -/
theorem C18_processContent_report_witness :
    (processContent
      { sampleSystem with termRelationships := addEdge [] "scam".toList "fraud".toList }
      "This is a SCAM!!".toList).map Prod.fst =
      some (some [("scam".toList, 1, ["fraud".toList])]) ∧
    (∃ (report : List (Str × Int × List Str)) (s1 : ContentModerationSystem),
      processContent
        { sampleSystem with termRelationships := addEdge [] "scam".toList "fraud".toList }
        "This is a SCAM!!".toList = some (some report, s1) ∧
      report.map (fun e => e.1) = ["scam".toList]) ∧
    (∃ s1 : ContentModerationSystem,
      processContent sampleSystem "hello world".toList = some (none, s1)) :=
  ⟨by decide,
   match (C18_processContent_report
      { sampleSystem with termRelationships := addEdge [] "scam".toList "fraud".toList }
      "This is a SCAM!!".toList).1 (by decide) with
   | ⟨report, s1, h1, h2, _⟩ =>
     ⟨report, s1, h1, h2.trans (by decide)⟩,
   (C18_processContent_report sampleSystem "hello world".toList).2 (by decide)⟩

/-! ## Monotonicity in the depth bound -/

theorem bfsStep_out_growth (maxDepth : Int) (s : BfsState) :
    ∃ extra : List Str,
      (bfsStep maxDepth s).relatedWords ++
          ((bfsStep maxDepth s).queue.filter (fun p => decide (0 < p.2))).map Prod.fst =
        s.relatedWords ++ (s.queue.filter (fun p => decide (0 < p.2))).map Prod.fst ++ extra := by
  obtain ⟨g, visited, queue, out⟩ := s
  cases queue with
  | nil => exact ⟨[], by simp [bfsStep]⟩
  | cons p rest =>
    obtain ⟨w, d⟩ := p
    by_cases hd : d < maxDepth
    · obtain ⟨fresh, h1, _⟩ :=
        visitNeighbours_spec d (neighbours (mapTouch g w []) w) visited rest
      refine ⟨((fresh.map (fun n => (n, d + 1))).filter (fun p => decide (0 < p.2))).map
        Prod.fst, ?_⟩
      simp only [bfsStep, hd, if_true, h1, List.filter_append, List.map_append]
      by_cases h0 : 0 < d
      · simp [h0, List.filter]
      · simp [h0, List.filter]
    · refine ⟨[], ?_⟩
      simp only [bfsStep, hd, if_false]
      by_cases h0 : 0 < d
      · simp [h0, List.filter]
      · simp [h0, List.filter]

theorem bfsLoop_out_prefix (maxDepth : Int) (n : Nat) :
    ∀ (s r : BfsState), bfsLoop maxDepth n s = some r →
      s.relatedWords ++ (s.queue.filter (fun p => decide (0 < p.2))).map Prod.fst <+:
        r.relatedWords := by
  induction n with
  | zero => intro s r h; simp [bfsLoop] at h
  | succ n ih =>
    intro s r h
    by_cases he : s.queue.isEmpty = true
    · simp only [bfsLoop, he, if_true, Option.some.injEq] at h
      rw [← h, List.isEmpty_iff.1 he]
      simp
    · simp only [bfsLoop, he] at h
      obtain ⟨extra, hx⟩ := bfsStep_out_growth maxDepth s
      have h1 := ih _ r h
      rw [hx] at h1
      exact (List.prefix_append _ extra).trans h1

theorem bfsLoop_no_expansion (maxDepth : Int) (n : Nat) :
    ∀ (s r : BfsState), (∀ p ∈ s.queue, ¬ p.2 < maxDepth) →
      bfsLoop maxDepth n s = some r →
      r.relatedWords =
        s.relatedWords ++ (s.queue.filter (fun p => decide (0 < p.2))).map Prod.fst := by
  induction n with
  | zero => intro s r _ h; simp [bfsLoop] at h
  | succ n ih =>
    intro s r hall h
    obtain ⟨g, visited, queue, out⟩ := s
    cases queue with
    | nil =>
      simp only [bfsLoop, List.isEmpty_nil, if_true, Option.some.injEq] at h
      rw [← h]
      simp
    | cons p rest =>
      obtain ⟨w, d⟩ := p
      have hd : ¬ d < maxDepth := hall (w, d) (List.mem_cons_self _ _)
      simp only [bfsLoop, List.isEmpty_cons, Bool.false_eq_true, if_false, bfsStep, hd] at h
      have h1 := ih _ r (fun p hp => hall p (List.mem_cons_of_mem _ hp)) h
      rw [h1]
      by_cases h0 : 0 < d
      · simp [h0, List.filter]
      · simp [h0, List.filter]

theorem bfsStep_bound_succ (maxDepth : Int) (s : BfsState) (w : Str) (d : Int)
    (rest : List (Str × Int)) (hq : s.queue = (w, d) :: rest) (hd : d < maxDepth) :
    bfsStep (maxDepth + 1) s = bfsStep maxDepth s := by
  have hd1 : d < maxDepth + 1 := by omega
  obtain ⟨g, visited, queue, out⟩ := s
  simp only at hq
  subst hq
  simp only [bfsStep, hd, hd1, if_true]

theorem bfsLoop_depth_prefix (g0 : Graph) (start : Str) (maxDepth : Int) (n : Nat) :
    ∀ (popped : List (Str × Int)) (s a b : BfsState),
      BfsInv g0 start maxDepth popped s →
      bfsLoop maxDepth n s = some a → bfsLoop (maxDepth + 1) n s = some b →
      a.relatedWords <+: b.relatedWords := by
  induction n with
  | zero => intro popped s a b _ h; simp [bfsLoop] at h
  | succ n ih =>
    intro popped s a b hinv ha hb
    cases hq : s.queue with
    | nil =>
      simp only [bfsLoop, hq, List.isEmpty_nil, if_true, Option.some.injEq] at ha hb
      rw [← ha, ← hb]
    | cons p rest =>
      obtain ⟨w, d⟩ := p
      by_cases hd : d < maxDepth
      · simp only [bfsLoop, hq, List.isEmpty_cons, Bool.false_eq_true, if_false] at ha hb
        rw [bfsStep_bound_succ maxDepth s w d rest hq hd] at hb
        exact ih _ _ a b (bfsInv_step g0 start maxDepth popped s w d rest hinv hq) ha hb
      · have hsorted := hinv.sorted
        rw [hq, List.map_append, List.map_cons, List.pairwise_append] at hsorted
        have hge : ∀ p ∈ rest, d ≤ p.2 := fun p hp =>
          (List.pairwise_cons.1 hsorted.2.1).1 p.2 (List.mem_map_of_mem _ hp)
        have hall : ∀ p ∈ s.queue, ¬ p.2 < maxDepth := by
          intro p hp
          rw [hq] at hp
          rcases List.mem_cons.1 hp with e | e
          · rw [e]; exact hd
          · have := hge p e
            omega
        rw [bfsLoop_no_expansion maxDepth _ s a hall ha]
        exact bfsLoop_out_prefix (maxDepth + 1) _ s b hb

theorem getRelatedWords_prefix (g : Graph) (start : Str) (maxDepth : Int) :
    ∃ (r1 : List Str) (g1 : Graph) (r2 : List Str) (g2 : Graph),
      getRelatedWords g start maxDepth = some (r1, g1) ∧
      getRelatedWords g start (maxDepth + 1) = some (r2, g2) ∧ r1 <+: r2 := by
  obtain ⟨a, _, ha, _, _⟩ :=
    bfsLoop_terminates g start maxDepth (bfsFuel g) [] _ (bfsInv_init g start maxDepth)
      (by simp [bfsFuel])
  obtain ⟨b, _, hb, _, _⟩ :=
    bfsLoop_terminates g start (maxDepth + 1) (bfsFuel g) [] _
      (bfsInv_init g start (maxDepth + 1)) (by simp [bfsFuel])
  refine ⟨a.relatedWords, a.adjacencyList, b.relatedWords, b.adjacencyList, ?_, ?_, ?_⟩
  · simp [getRelatedWords, ha]
  · simp [getRelatedWords, hb]
  · exact bfsLoop_depth_prefix g start maxDepth (bfsFuel g) [] _ a b
      (bfsInv_init g start maxDepth) ha hb

theorem getRelatedWords_nearest_first (g : Graph) (start : Str) (maxDepth : Int) :
    ∃ (related : List Str) (g1 : Graph),
      getRelatedWords g start maxDepth = some (related, g1) ∧
      related.Pairwise (fun t1 t2 =>
        ∀ n : Nat, Reach g n start t2 → ∃ m : Nat, m ≤ n ∧ Reach g m start t1) := by
  obtain ⟨s1, popped, hres, hinv, hq⟩ := getRelatedWords_inv g start maxDepth
  obtain ⟨_, _, hnodup, hsorted, _, hpath, hclosed, hstart, hout⟩ := hinv
  rw [hq, List.append_nil] at hnodup hsorted hpath hclosed hstart
  have hinj : ∀ p ∈ popped, ∀ q ∈ popped, p.1 = q.1 → p = q :=
    fun p hp q hq' e => List.inj_on_of_nodup_map hnodup hp hq' e
  have hcomplete : ∀ (n : Nat) (t : Str), Reach g n start t → (n : Int) ≤ maxDepth →
      ∃ p ∈ popped, p.1 = t ∧ p.2 ≤ (n : Int) := by
    intro n
    induction n with
    | zero =>
      intro t hr _
      exact ⟨(start, 0), hstart, hr, le_refl _⟩
    | succ n ih =>
      intro t hr hle
      obtain ⟨c, hrc, htc⟩ := hr
      obtain ⟨p, hp, hp1, hp2⟩ := ih c hrc (by push_cast at hle; omega)
      rw [← hp1] at htc
      obtain ⟨q, hq1, hq2, hq3⟩ := hclosed p hp (by push_cast at hle; omega) t htc
      exact ⟨q, hq1, hq2, by push_cast; omega⟩
  have hpair : popped.Pairwise (fun p1 p2 =>
      ∀ n : Nat, Reach g n start p2.1 → ∃ m : Nat, m ≤ n ∧ Reach g m start p1.1) := by
    refine List.Pairwise.imp_of_mem ?_ (List.pairwise_map.1 hsorted)
    intro p1 p2 hp1 hp2 hle n hr
    obtain ⟨m1, hm1, hr1, _⟩ := hpath p1 hp1
    obtain ⟨m2, hm2, _, hb2⟩ := hpath p2 hp2
    refine ⟨m1, ?_, hr1⟩
    by_cases hn : (n : Int) ≤ maxDepth
    · obtain ⟨q, hq1, hq2, hq3⟩ := hcomplete n p2.1 hr hn
      have := hinj q hq1 p2 hp2 hq2
      rw [this] at hq3
      omega
    · rcases hb2 with hb2 | hb2
      · omega
      · omega
  refine ⟨s1.relatedWords, s1.adjacencyList, hres, ?_⟩
  rw [hout, List.pairwise_map]
  exact hpair.sublist (List.filter_sublist _)

/-- C20: `getRelatedWords` is monotone in the depth bound and lists terms nearest
first: for every graph, start term and bound `d`, `getRelatedWords(start, d)` is a prefix
of `getRelatedWords(start, d + 1)`, and in either result a term never comes before a term
of smaller hop distance (whenever the later term is reached in `n` hops, the earlier one
is reached in at most `n` hops). -/
theorem C20_getRelatedWords_depth_monotone (g : Graph) (start : Str) (d : Int) :
    ∃ (r1 : List Str) (g1 : Graph) (r2 : List Str) (g2 : Graph),
      getRelatedWords g start d = some (r1, g1) ∧
      getRelatedWords g start (d + 1) = some (r2, g2) ∧
      r1 <+: r2 ∧
      r1.Pairwise (fun t1 t2 =>
        ∀ n : Nat, Reach g n start t2 → ∃ m : Nat, m ≤ n ∧ Reach g m start t1) ∧
      r2.Pairwise (fun t1 t2 =>
        ∀ n : Nat, Reach g n start t2 → ∃ m : Nat, m ≤ n ∧ Reach g m start t1) := by
  obtain ⟨r1, g1, r2, g2, h1, h2, hp⟩ := getRelatedWords_prefix g start d
  obtain ⟨r1a, g1a, h1a, ho1⟩ := getRelatedWords_nearest_first g start d
  obtain ⟨r2a, g2a, h2a, ho2⟩ := getRelatedWords_nearest_first g start (d + 1)
  rw [h1] at h1a
  rw [h2] at h2a
  simp only [Option.some.injEq, Prod.mk.injEq] at h1a h2a
  rw [← h1a.1] at ho1
  rw [← h2a.1] at ho2
  exact ⟨r1, g1, r2, g2, h1, h2, hp, ho1, ho2⟩

/-! ## Enumerating the Trie -/

theorem mapFind_some_mem {κ : Type} [DecidableEq κ] {α : Type}
    (m : List (κ × α)) (k : κ) (v : α) (h : mapFind m k = some v) : (k, v) ∈ m := by
  induction m with
  | nil => simp [mapFind] at h
  | cons p rest ih =>
    obtain ⟨k0, x⟩ := p
    by_cases h0 : k0 = k
    · simp only [mapFind, h0, if_true, Option.some.injEq] at h
      rw [h0, h]
      exact List.mem_cons_self _ _
    · simp only [mapFind, h0, if_false] at h
      exact List.mem_cons_of_mem _ (ih h)

theorem mapFind_of_mem_nodup {κ : Type} [DecidableEq κ] {α : Type}
    (m : List (κ × α)) (k : κ) (v : α) (hnd : (m.map Prod.fst).Nodup) (h : (k, v) ∈ m) :
    mapFind m k = some v := by
  induction m with
  | nil => simp at h
  | cons p rest ih =>
    obtain ⟨k0, x⟩ := p
    rw [List.map_cons, List.nodup_cons] at hnd
    rcases List.mem_cons.1 h with e | e
    · simp only [Prod.mk.injEq] at e
      simp [mapFind, e.1, e.2]
    · have hne : ¬ k0 = k := by
        intro e0
        exact hnd.1 (List.mem_map.2 ⟨(k, v), e, e0.symm⟩)
      simp only [mapFind, hne, if_false]
      exact ih hnd.2 e

theorem mem_mapSet {κ : Type} [DecidableEq κ] {α : Type}
    (m : List (κ × α)) (k : κ) (v : α) (p : κ × α) (h : p ∈ mapSet m k v) :
    p ∈ m ∨ p = (k, v) := by
  induction m with
  | nil =>
    simp only [mapSet, List.mem_singleton] at h
    right; exact h
  | cons q rest ih =>
    obtain ⟨k0, x⟩ := q
    by_cases h0 : k0 = k
    · simp only [mapSet, h0, if_true, List.mem_cons] at h
      rcases h with e | e
      · right; exact e
      · left; exact List.mem_cons_of_mem _ e
    · simp only [mapSet, h0, if_false, List.mem_cons] at h
      rcases h with e | e
      · left; rw [e]; exact List.mem_cons_self _ _
      · rcases ih e with e1 | e1
        · left; exact List.mem_cons_of_mem _ e1
        · right; exact e1

theorem mem_keys_mapSet {κ : Type} [DecidableEq κ] {α : Type}
    (m : List (κ × α)) (k : κ) (v : α) (u : κ) (h : u ∈ (mapSet m k v).map Prod.fst) :
    u ∈ m.map Prod.fst ∨ u = k := by
  obtain ⟨p, hp, e⟩ := List.mem_map.1 h
  rcases mem_mapSet m k v p hp with h1 | h1
  · left; exact List.mem_map.2 ⟨p, h1, e⟩
  · right; rw [← e, h1]

theorem nodup_keys_mapSet {κ : Type} [DecidableEq κ] {α : Type}
    (m : List (κ × α)) (k : κ) (v : α) (hnd : (m.map Prod.fst).Nodup) :
    ((mapSet m k v).map Prod.fst).Nodup := by
  induction m with
  | nil => simp [mapSet]
  | cons q rest ih =>
    obtain ⟨k0, x⟩ := q
    rw [List.map_cons, List.nodup_cons] at hnd
    by_cases h0 : k0 = k
    · simp only [mapSet, h0, if_true, List.map_cons, List.nodup_cons]
      rw [← h0]
      exact hnd
    · simp only [mapSet, h0, if_false, List.map_cons, List.nodup_cons]
      refine ⟨?_, ih hnd.2⟩
      intro hmem
      rcases mem_keys_mapSet rest k v k0 hmem with h1 | h1
      · exact hnd.1 h1
      · exact h0 h1

mutual
theorem dfs_spec : ∀ (t : TrieNode) (pre : Str), uniqueKeys t →
    (dfs t pre).Nodup ∧
      ∀ x, x ∈ dfs t pre ↔ ∃ v, x = pre ++ v ∧ searchWord t v = true
  | .mk ch e w, pre, h => by
    simp only [uniqueKeys] at h
    obtain ⟨hnd, hmem⟩ := dfsChildren_spec ch pre h.1 h.2
    constructor
    · simp only [dfs]
      rw [List.nodup_append]
      refine ⟨by split <;> simp, hnd, ?_⟩
      intro x hx hx1
      obtain ⟨c, child, v, _, hxe, _⟩ := (hmem x).1 hx1
      have hxp : x = pre := by
        split at hx
        · exact List.mem_singleton.1 hx
        · simp at hx
      rw [hxp] at hxe
      have := congrArg List.length hxe
      simp at this
    · intro x
      simp only [dfs, List.mem_append, hmem x]
      constructor
      · rintro (hx | ⟨c, child, v, hc, hxe, hs⟩)
        · by_cases he : e = true
          · simp only [he, if_true, List.mem_singleton] at hx
            exact ⟨[], by simp [hx], by simp [searchWord, he]⟩
          · simp [he] at hx
        · refine ⟨c :: v, hxe, ?_⟩
          simp only [searchWord, mapFind_of_mem_nodup ch c child h.1 hc]
          exact hs
      · rintro ⟨v, hxe, hs⟩
        cases v with
        | nil =>
          left
          simp only [searchWord] at hs
          simp [hs, hxe]
        | cons c v1 =>
          right
          simp only [searchWord] at hs
          cases hfind : mapFind ch c with
          | none => simp [hfind] at hs
          | some child =>
            simp only [hfind] at hs
            exact ⟨c, child, v1, mapFind_some_mem ch c child hfind, hxe, hs⟩
theorem dfsChildren_spec : ∀ (ch : List (Char × TrieNode)) (pre : Str),
    (ch.map Prod.fst).Nodup → uniqueKeysChildren ch →
    (dfsChildren ch pre).Nodup ∧
      ∀ x, x ∈ dfsChildren ch pre ↔
        ∃ (c : Char) (child : TrieNode) (v : Str),
          (c, child) ∈ ch ∧ x = pre ++ c :: v ∧ searchWord child v = true
  | [], pre, _, _ => by simp [dfsChildren]
  | (c, child) :: rest, pre, h1, h2 => by
    simp only [uniqueKeysChildren] at h2
    rw [List.map_cons, List.nodup_cons] at h1
    obtain ⟨hnd1, hmem1⟩ := dfs_spec child (pre ++ [c]) h2.1
    obtain ⟨hnd2, hmem2⟩ := dfsChildren_spec rest pre h1.2 h2.2
    constructor
    · simp only [dfsChildren]
      rw [List.nodup_append]
      refine ⟨hnd1, hnd2, ?_⟩
      intro x hx hx1
      obtain ⟨v, hxe, _⟩ := (hmem1 x).1 hx
      obtain ⟨c1, child1, v1, hc1, hxe1, _⟩ := (hmem2 x).1 hx1
      rw [hxe, List.append_assoc, List.singleton_append] at hxe1
      have hcons := List.append_cancel_left hxe1
      simp only [List.cons.injEq] at hcons
      exact h1.1 (List.mem_map.2 ⟨(c1, child1), hc1, hcons.1.symm⟩)
    · intro x
      simp only [dfsChildren, List.mem_append, hmem1 x, hmem2 x]
      constructor
      · rintro (⟨v, hxe, hs⟩ | ⟨c1, child1, v1, hc1, hxe1, hs1⟩)
        · exact ⟨c, child, v, List.mem_cons_self _ _, by simp [hxe], hs⟩
        · exact ⟨c1, child1, v1, List.mem_cons_of_mem _ hc1, hxe1, hs1⟩
      · rintro ⟨c1, child1, v1, hc1, hxe1, hs1⟩
        rcases List.mem_cons.1 hc1 with e | e
        · simp only [Prod.mk.injEq] at e
          left
          refine ⟨v1, by simp [hxe1, e.1], ?_⟩
          rw [← e.2]; exact hs1
        · right
          exact ⟨c1, child1, v1, e, hxe1, hs1⟩
end

theorem bfsStep_queue (maxDepth : Int) (s : BfsState) (p : Str × Int)
    (rest : List (Str × Int)) (hq : s.queue = p :: rest) :
    ∃ pushed : List (Str × Int), (bfsStep maxDepth s).queue = rest ++ pushed := by
  obtain ⟨g, visited, queue, out⟩ := s
  simp only at hq
  subst hq
  obtain ⟨w, d⟩ := p
  by_cases hd : d < maxDepth
  · obtain ⟨fresh, h1, _⟩ :=
      visitNeighbours_spec d (neighbours (mapTouch g w []) w) visited rest
    exact ⟨fresh.map (fun n => (n, d + 1)), by simp only [bfsStep, hd, if_true, h1]⟩
  · exact ⟨[], by simp only [bfsStep, hd, if_false, List.append_nil]⟩

theorem bfsPushed_spec (maxDepth : Int) (s : BfsState) (p : Str × Int)
    (rest : List (Str × Int)) (hq : s.queue = p :: rest) :
    (bfsStep maxDepth s).queue = rest ++ bfsPushed maxDepth s := by
  obtain ⟨pushed, h⟩ := bfsStep_queue maxDepth s p rest hq
  unfold bfsPushed
  rw [h, hq]
  simp

theorem bfsStep_graph (maxDepth : Int) (s : BfsState) :
    ∃ added : List Str,
      (bfsStep maxDepth s).adjacencyList =
        s.adjacencyList ++ added.map (fun w => (w, ([] : List Str))) := by
  obtain ⟨g, visited, queue, out⟩ := s
  cases queue with
  | nil => exact ⟨[], by simp [bfsStep]⟩
  | cons p rest =>
    obtain ⟨w, d⟩ := p
    by_cases hd : d < maxDepth
    · cases hfind : mapFind g w with
      | none => exact ⟨[w], by simp [bfsStep, hd, mapTouch, hfind]⟩
      | some ns => exact ⟨[], by simp [bfsStep, hd, mapTouch, hfind]⟩
    · exact ⟨[], by simp [bfsStep, hd]⟩

theorem bfsLoop_graph (maxDepth : Int) (n : Nat) :
    ∀ (s r : BfsState), bfsLoop maxDepth n s = some r →
      ∃ added : List Str,
        r.adjacencyList = s.adjacencyList ++ added.map (fun w => (w, ([] : List Str))) := by
  induction n with
  | zero => intro s r h; simp [bfsLoop] at h
  | succ n ih =>
    intro s r h
    by_cases he : s.queue.isEmpty = true
    · simp only [bfsLoop, he, if_true, Option.some.injEq] at h
      exact ⟨[], by simp [h]⟩
    · simp only [bfsLoop, he] at h
      obtain ⟨added1, h1⟩ := bfsStep_graph maxDepth s
      obtain ⟨added2, h2⟩ := ih _ r h
      exact ⟨added1 ++ added2, by rw [h2, h1]; simp⟩

theorem bfsLoopLog_spec (g0 : Graph) (start : Str) (maxDepth : Int) (n : Nat) :
    ∀ (popped : List (Str × Int)) (s r : BfsState),
      BfsInv g0 start maxDepth popped s → bfsLoop maxDepth n s = some r →
      ∃ log : List (Str × Int),
        bfsLoopLog maxDepth n s (popped ++ s.queue) = some (r, log) ∧
        (log.map Prod.fst).Nodup := by
  induction n with
  | zero => intro popped s r _ h; simp [bfsLoop] at h
  | succ n ih =>
    intro popped s r hinv h
    cases hq : s.queue with
    | nil =>
      simp only [bfsLoop, hq, List.isEmpty_nil, if_true, Option.some.injEq] at h
      subst h
      refine ⟨popped ++ [], by simp [bfsLoopLog, hq], ?_⟩
      have := hinv.nodup
      rw [hq] at this
      exact this
    | cons p rest =>
      obtain ⟨w, d⟩ := p
      simp only [bfsLoop, hq, List.isEmpty_cons, Bool.false_eq_true, if_false] at h
      have hinv1 := bfsInv_step g0 start maxDepth popped s w d rest hinv hq
      obtain ⟨log, hlog, hnd⟩ := ih _ _ r hinv1 h
      refine ⟨log, ?_, hnd⟩
      have hpush := bfsPushed_spec maxDepth s (w, d) rest hq
      have e : popped ++ (w, d) :: rest ++ bfsPushed maxDepth s =
          popped ++ [(w, d)] ++ (bfsStep maxDepth s).queue := by
        rw [hpush]; simp
      simp only [bfsLoopLog, hq, List.isEmpty_cons, Bool.false_eq_true, if_false]
      rw [← hq, hq, e]
      exact hlog

/-- C21: `getRelatedWords` is total. For every graph (cycles, self-loops and duplicate
edges included), every start term (present or absent) and every integer `maxDepth`
(negative values included) the breadth-first loop ends with an empty queue within
`bfsFuel g` tests of its condition, and more fuel gives the same final state; in the record
of all pushes no term occurs twice; and the adjacency list afterwards is the one before
followed by entries with an empty sequence, so no neighbour sequence changes. -/
theorem C21_getRelatedWords_total (g : Graph) (start : Str) (maxDepth : Int) :
    ∃ (final : BfsState) (log : List (Str × Int)) (added : List Str),
      (∀ fuel, bfsFuel g ≤ fuel → bfsLoop maxDepth fuel (bfsInit g start) = some final) ∧
      final.queue = [] ∧
      getRelatedWords g start maxDepth = some (final.relatedWords, final.adjacencyList) ∧
      bfsLoopLog maxDepth (bfsFuel g) (bfsInit g start) [(start, 0)] = some (final, log) ∧
      (log.map Prod.fst).Nodup ∧
      final.adjacencyList = g ++ added.map (fun w => (w, ([] : List Str))) ∧
      (∀ u, neighbours final.adjacencyList u = neighbours g u) ∧
      (∀ u ns, mapFind g u = some ns → mapFind final.adjacencyList u = some ns) := by
  obtain ⟨final, popped, hloop, hinv, hq⟩ :=
    bfsLoop_terminates g start maxDepth (bfsFuel g) [] (bfsInit g start)
      (bfsInv_init g start maxDepth) (by simp [bfsFuel])
  obtain ⟨log, hlog, hnd⟩ :=
    bfsLoopLog_spec g start maxDepth (bfsFuel g) [] (bfsInit g start) final
      (bfsInv_init g start maxDepth) hloop
  obtain ⟨added, hadded⟩ := bfsLoop_graph maxDepth _ _ final hloop
  refine ⟨final, log, added, ?_, hq, ?_, hlog, hnd, hadded, ?_, ?_⟩
  · intro fuel hfuel
    have := bfsLoop_fuel_mono maxDepth _ _ final hloop (fuel - bfsFuel g)
    rw [Nat.add_sub_cancel' hfuel] at this
    exact this
  · have h1 : bfsLoop maxDepth (bfsFuel g)
        { adjacencyList := g, visited := [start], queue := [(start, 0)],
          relatedWords := [] } = some final := hloop
    simp [getRelatedWords, h1]
  · intro u
    exact neighbours_of_entries _ g u (hinv.entries u)
  · intro u ns hu
    rcases hinv.entries u with h | ⟨h, _⟩
    · rw [h, hu]
    · rw [hu] at h; cases h

/-- Witness of C21: on a graph with a duplicate edge between "a" and "b" and a self-loop
on "a", the traversal from "a" with depth 2 ends, also with more fuel, and pushes no
term twice; from an absent start with a negative depth it returns the empty sequence. -/
theorem C21_getRelatedWords_total_witness :
    (∃ (final : BfsState) (log : List (Str × Int)),
      bfsLoop 2
          (bfsFuel (addEdge (addEdge (addEdge [] "a".toList "b".toList) "b".toList "a".toList)
            "a".toList "a".toList) + 7)
          (bfsInit (addEdge (addEdge (addEdge [] "a".toList "b".toList) "b".toList "a".toList)
            "a".toList "a".toList) "a".toList) = some final ∧
      final.queue = [] ∧ (log.map Prod.fst).Nodup) ∧
    getRelatedWords [] "x".toList (-3) = some ([], []) :=
  ⟨match C21_getRelatedWords_total
      (addEdge (addEdge (addEdge [] "a".toList "b".toList) "b".toList "a".toList)
        "a".toList "a".toList) "a".toList 2 with
    | ⟨final, log, _, h1, h2, _, _, h5, _⟩ =>
      ⟨final, log, h1 _ (Nat.le_add_right _ 7), h2, h5⟩,
   by decide⟩

/-! ## Frequency table and log -/

theorem logOccurrences_append (log : List (Str × List Str)) (text : Str) (ms : List Str)
    (w : Str) : logOccurrences (log ++ [(text, ms)]) w = logOccurrences log w + ms.count w := by
  simp [logOccurrences]

theorem searchFlaggedLoop_keys (root : TrieNode) (toks : List Str) :
    ∀ st : List Str × FreqTable,
      (∀ t ∈ st.1, mapFind st.2 t ≠ none) →
      ∀ t ∈ (searchFlaggedLoop root toks st).1,
        mapFind (searchFlaggedLoop root toks st).2 t ≠ none := by
  induction toks with
  | nil => intro st h; simpa [searchFlaggedLoop] using h
  | cons tok rest ih =>
    intro st h
    obtain ⟨flagged, freq⟩ := st
    by_cases hs : searchWord root (removePunct tok) = true
    · simp only [searchFlaggedLoop, hs, if_true]
      apply ih
      intro t ht
      simp only [incrementCounter]
      by_cases e : removePunct tok = t
      · rw [← e, mapFind_mapSet_same]
        exact Option.some_ne_none _
      · rw [mapFind_mapSet_other _ _ _ _ e]
        rcases List.mem_append.1 ht with h1 | h1
        · exact h t h1
        · exact absurd (List.mem_singleton.1 h1).symm e
    · simp only [searchFlaggedLoop, hs]
      exact ih (flagged, freq) h

theorem searchFlaggedLoop_origin (root : TrieNode) (toks : List Str) :
    ∀ st : List Str × FreqTable,
      ∀ e ∈ (searchFlaggedLoop root toks st).2,
        (∃ e0 ∈ st.2, e0.1 = e.1) ∨ e.1 ∈ (toks.map removePunct).filter (searchWord root) := by
  induction toks with
  | nil =>
    intro st e he
    left
    exact ⟨e, by simpa [searchFlaggedLoop] using he, rfl⟩
  | cons tok rest ih =>
    intro st e he
    obtain ⟨flagged, freq⟩ := st
    by_cases hs : searchWord root (removePunct tok) = true
    · simp only [searchFlaggedLoop, hs, if_true] at he
      rw [List.map_cons, List.filter_cons_of_pos hs]
      rcases ih _ e he with ⟨e0, he0, e1⟩ | h1
      · simp only [incrementCounter] at he0
        rcases mem_mapSet freq _ _ e0 he0 with h2 | h2
        · left; exact ⟨e0, h2, e1⟩
        · right
          rw [← e1, h2]
          exact List.mem_cons_self _ _
      · right; exact List.mem_cons_of_mem _ h1
    · simp only [searchFlaggedLoop, hs] at he
      rw [List.map_cons, List.filter_cons_of_neg hs]
      exact ih _ e he

theorem searchFlaggedLoop_nodup (root : TrieNode) (toks : List Str) :
    ∀ st : List Str × FreqTable, (st.2.map Prod.fst).Nodup →
      ((searchFlaggedLoop root toks st).2.map Prod.fst).Nodup := by
  induction toks with
  | nil => intro st h; simpa [searchFlaggedLoop] using h
  | cons tok rest ih =>
    intro st h
    obtain ⟨flagged, freq⟩ := st
    by_cases hs : searchWord root (removePunct tok) = true
    · simp only [searchFlaggedLoop, hs, if_true]
      exact ih _ (nodup_keys_mapSet freq _ _ h)
    · simp only [searchFlaggedLoop, hs]
      exact ih (flagged, freq) h

theorem flagContent_inv (s : ContentModerationSystem) (content : Str)
    (h1 : ∀ w, counter s.flaggedTermsFrequency w =
      wrapInt32 (logOccurrences s.flaggedContent w : Int))
    (h2 : (s.flaggedTermsFrequency.map Prod.fst).Nodup)
    (h3 : ∀ e ∈ s.flaggedTermsFrequency,
      0 < logOccurrences s.flaggedContent e.1 ∧ searchWord s.root e.1 = true) :
    (flagContent s content).2.root = s.root ∧
    (∀ w, counter (flagContent s content).2.flaggedTermsFrequency w =
      wrapInt32 (logOccurrences (flagContent s content).2.flaggedContent w : Int)) ∧
    ((flagContent s content).2.flaggedTermsFrequency.map Prod.fst).Nodup ∧
    (∀ e ∈ (flagContent s content).2.flaggedTermsFrequency,
      0 < logOccurrences (flagContent s content).2.flaggedContent e.1 ∧
        searchWord s.root e.1 = true) := by
  have hcnt := (searchFlaggedWords_spec s.root s.flaggedTermsFrequency content).2
  have hnd : ((searchFlaggedWords s.root s.flaggedTermsFrequency content).2.map
      Prod.fst).Nodup :=
    searchFlaggedLoop_nodup s.root _ ([], s.flaggedTermsFrequency) h2
  have horigin : ∀ e ∈ (searchFlaggedWords s.root s.flaggedTermsFrequency content).2,
      (∃ e0 ∈ s.flaggedTermsFrequency, e0.1 = e.1) ∨
        e.1 ∈ (searchFlaggedWords s.root s.flaggedTermsFrequency content).1 := by
    intro e he
    have hl := (searchFlaggedLoop_spec s.root (extractWords (content.map tolower) []) []
      s.flaggedTermsFrequency).1
    rcases searchFlaggedLoop_origin s.root _ ([], s.flaggedTermsFrequency) e he with h | h
    · left; exact h
    · right
      unfold searchFlaggedWords
      rw [hl, List.nil_append]
      exact h
  have hfound : ∀ t ∈ (searchFlaggedWords s.root s.flaggedTermsFrequency content).1,
      searchWord s.root t = true := by
    intro t ht
    rw [(searchFlaggedWords_spec s.root s.flaggedTermsFrequency content).1] at ht
    exact (List.mem_filter.1 ht).2
  by_cases hm : (searchFlaggedWords s.root s.flaggedTermsFrequency content).1 = []
  · rw [flagContent_clean s content hm]
    refine ⟨rfl, ?_, hnd, ?_⟩
    · intro w
      simp only
      rw [hcnt w, hm, h1 w]
      simp
    · intro e he
      simp only at he ⊢
      rcases horigin e he with ⟨e0, he0, e1⟩ | h
      · rw [← e1]; exact h3 e0 he0
      · rw [hm] at h; simp at h
  · rw [flagContent_flagged s content hm]
    refine ⟨rfl, ?_, hnd, ?_⟩
    · intro w
      simp only
      rw [hcnt w, logOccurrences_append, h1 w]
      by_cases hk : (searchFlaggedWords s.root s.flaggedTermsFrequency content).1.count w = 0
      · simp [hk]
      · rw [if_neg hk, wrapInt32_wrap_add]
        push_cast
        rfl
    · intro e he
      simp only at he ⊢
      rw [logOccurrences_append]
      rcases horigin e he with ⟨e0, he0, e1⟩ | h
      · rw [← e1]
        exact ⟨Nat.lt_of_lt_of_le (h3 e0 he0).1 (Nat.le_add_right _ _), (h3 e0 he0).2⟩
      · have hpos := List.count_pos_iff.2 h
        exact ⟨by omega, hfound e.1 h⟩

theorem mapTouch_present {κ : Type} [DecidableEq κ] {α : Type}
    (m : List (κ × α)) (k : κ) (d : α) (h : mapFind m k ≠ none) : mapTouch m k d = m := by
  unfold mapTouch
  cases hf : mapFind m k with
  | none => exact absurd hf h
  | some v => rfl

theorem processTerms_freq (terms : List Str) :
    ∀ (freq : FreqTable) (g : Graph) (report : List (Str × Int × List Str))
      (freq1 : FreqTable) (g1 : Graph),
      (∀ t ∈ terms, mapFind freq t ≠ none) →
      processTerms terms freq g = some (report, freq1, g1) → freq1 = freq := by
  induction terms with
  | nil =>
    intro freq g report freq1 g1 _ h
    simp only [processTerms, Option.some.injEq, Prod.mk.injEq] at h
    exact h.2.1.symm
  | cons term rest ih =>
    intro freq g report freq1 g1 hkeys h
    have ht := mapTouch_present freq term 0 (hkeys term (List.mem_cons_self _ _))
    simp only [processTerms, ht] at h
    cases hrel : getRelatedWords g term 2 with
    | none => simp [hrel] at h
    | some res =>
      obtain ⟨related, g2⟩ := res
      simp only [hrel] at h
      cases hrest : processTerms rest freq g2 with
      | none => simp [hrest] at h
      | some res1 =>
        obtain ⟨report1, freq2, g3⟩ := res1
        simp only [hrest, Option.some.injEq, Prod.mk.injEq] at h
        rw [← h.2.1]
        exact ih freq g2 report1 freq2 g3 (fun t ht => hkeys t (List.mem_cons_of_mem _ ht)) hrest

theorem processContent_state (s s1 : ContentModerationSystem) (content : Str)
    (r : Option (List (Str × Int × List Str)))
    (h : processContent s content = some (r, s1)) :
    s1.root = (flagContent s content).2.root ∧
    s1.flaggedTermsFrequency = (flagContent s content).2.flaggedTermsFrequency ∧
    s1.flaggedContent = (flagContent s content).2.flaggedContent := by
  by_cases hm : (searchFlaggedWords s.root s.flaggedTermsFrequency content).1 = []
  · unfold processContent at h
    simp only [flagContent_clean s content hm, Bool.false_eq_true, if_false, Option.some.injEq,
      Prod.mk.injEq] at h
    rw [flagContent_clean s content hm, ← h.2]
    exact ⟨rfl, rfl, rfl⟩
  · have hkeys : ∀ t ∈ (searchFlaggedWords s.root s.flaggedTermsFrequency content).1,
        mapFind (searchFlaggedWords s.root s.flaggedTermsFrequency content).2 t ≠ none :=
      searchFlaggedLoop_keys s.root _ ([], s.flaggedTermsFrequency) (by simp)
    unfold processContent at h
    simp only [flagContent_flagged s content hm, if_true, List.getLast?_append,
      List.getLast?_singleton, Option.or_some] at h
    cases hp : processTerms (searchFlaggedWords s.root s.flaggedTermsFrequency content).1
        (searchFlaggedWords s.root s.flaggedTermsFrequency content).2 s.termRelationships with
    | none => simp [hp] at h
    | some res =>
      obtain ⟨report, freq, g⟩ := res
      simp only [hp, Option.some.injEq, Prod.mk.injEq] at h
      have hfreq := processTerms_freq _ _ _ report freq g hkeys hp
      rw [flagContent_flagged s content hm, ← h.2, hfreq]
      exact ⟨rfl, rfl, rfl⟩

theorem searchWord_loadBannedWords_mono (root : TrieNode) (file : Option Str) (v : Str)
    (h : searchWord root v = true) : searchWord (loadBannedWords root file) v = true := by
  cases file with
  | none => exact h
  | some text =>
    exact (searchWord_loadBannedLines (getlineAll '\n' text []) root v).2 (Or.inl h)

theorem reachable_freq_inv (s : ContentModerationSystem) (h : Reachable s) :
    (∀ w, counter s.flaggedTermsFrequency w =
      wrapInt32 (logOccurrences s.flaggedContent w : Int)) ∧
    (s.flaggedTermsFrequency.map Prod.fst).Nodup ∧
    (∀ e ∈ s.flaggedTermsFrequency,
      0 < logOccurrences s.flaggedContent e.1 ∧ searchWord s.root e.1 = true) := by
  induction h with
  | fresh =>
    refine ⟨?_, by simp [ContentModerationSystem.new], by simp [ContentModerationSystem.new]⟩
    intro w
    have : wrapInt32 0 = 0 := by decide
    simp [ContentModerationSystem.new, counter, mapFind, logOccurrences, this]
  | step s s1 op _ hop ih =>
    obtain ⟨ih1, ih2, ih3⟩ := ih
    cases op with
    | loadBannedWords file =>
      simp only [applyOp, Option.some.injEq] at hop
      rw [← hop]
      exact ⟨ih1, ih2, fun e he =>
        ⟨(ih3 e he).1, searchWord_loadBannedWords_mono s.root file e.1 (ih3 e he).2⟩⟩
    | addTermRelationship a b =>
      simp only [applyOp, Option.some.injEq] at hop
      rw [← hop]; exact ⟨ih1, ih2, ih3⟩
    | flagContent content =>
      simp only [applyOp, Option.some.injEq] at hop
      obtain ⟨hroot, hc, hnd, he⟩ := flagContent_inv s content ih1 ih2 ih3
      rw [← hop]
      exact ⟨hc, hnd, fun e he1 => by rw [hroot]; exact he e he1⟩
    | processContent content =>
      simp only [applyOp, Option.map_eq_some'] at hop
      obtain ⟨⟨r, s2⟩, hp, he⟩ := hop
      simp only at he
      subst he
      obtain ⟨hroot, hc, hnd, hent⟩ := flagContent_inv s content ih1 ih2 ih3
      obtain ⟨e1, e2, e3⟩ := processContent_state s s2 content r hp
      rw [e1, e2, e3]
      exact ⟨hc, hnd, fun e he1 => by rw [hroot]; exact hent e he1⟩
    | collectFeedback =>
      simp only [applyOp, Option.some.injEq] at hop
      rw [← hop]; exact ⟨ih1, ih2, ih3⟩
    | visualizeTermGraph =>
      simp only [applyOp, Option.some.injEq] at hop
      rw [← hop]; exact ⟨ih1, ih2, ih3⟩
    | addBannedWord w =>
      simp only [applyOp, Option.some.injEq] at hop
      rw [← hop]
      exact ⟨ih1, ih2, fun e he =>
        ⟨(ih3 e he).1, by simp [addBannedWord, searchWord_insertWord, (ih3 e he).2]⟩⟩
    | showStatistics =>
      simp only [applyOp, Option.some.injEq] at hop
      rw [← hop]; exact ⟨ih1, ih2, ih3⟩

theorem map_tolower_repeatText (n : Nat) (piece : Str) :
    (repeatText n piece).map tolower = repeatText n (piece.map tolower) := by
  induction n with
  | zero => rfl
  | succ n ih => simp only [repeatText, List.map_append, ih]

theorem extractWords_repeatText (n : Nat) (word : Str) (c : Char)
    (hword : ∀ x ∈ word, isspace x = false) (hne : word ≠ []) (hc : isspace c = true) :
    extractWords (repeatText n (word ++ [c])) [] = List.replicate n word := by
  induction n with
  | zero => rfl
  | succ n ih =>
    have he : word.isEmpty = false := by
      cases word with
      | nil => exact absurd rfl hne
      | cons _ _ => rfl
    simp only [repeatText]
    rw [List.append_assoc, List.singleton_append,
      extractWords_read_word word _ hword [], List.nil_append]
    simp only [extractWords, hc, if_true, he, Bool.false_eq_true, if_false, ih,
      List.replicate_succ]

theorem filter_replicate_found (root : TrieNode) (n : Nat) (word : Str)
    (hp : removePunct word = word) (hs : searchWord root word = true) :
    ((List.replicate n word).map removePunct).filter (searchWord root) =
      List.replicate n word := by
  induction n with
  | zero => rfl
  | succ n ih =>
    rw [List.replicate_succ, List.map_cons, hp, List.filter_cons_of_pos hs, ih]

theorem searchFlaggedWords_repeated (n : Nat) :
    (searchFlaggedWords sampleSystem.root sampleSystem.flaggedTermsFrequency
      (repeatText n "scam ".toList)).1 = List.replicate n "scam".toList := by
  have hl := (searchFlaggedLoop_spec sampleSystem.root
    (extractWords ((repeatText n "scam ".toList).map tolower) []) []
    sampleSystem.flaggedTermsFrequency).1
  have h1 : "scam ".toList.map tolower = "scam".toList ++ [' '] := by decide
  unfold searchFlaggedWords
  rw [hl, List.nil_append, map_tolower_repeatText, h1,
    extractWords_repeatText n "scam".toList ' ' (by decide) (by decide) (by decide),
    filter_replicate_found sampleSystem.root n "scam".toList (by decide) (by decide)]

theorem reachable_sampleSystem : Reachable sampleSystem :=
  Reachable.step ContentModerationSystem.new sampleSystem
    (Op.loadBannedWords (some sampleBannedWordsFile)) Reachable.fresh rfl

theorem flagContent_repeated (n : Nat) (hn : 0 < n) :
    Reachable (flagContent sampleSystem (repeatText n "scam ".toList)).2 ∧
    counter (flagContent sampleSystem (repeatText n "scam ".toList)).2.flaggedTermsFrequency
      "scam".toList = wrapInt32 (n : Int) ∧
    logOccurrences (flagContent sampleSystem (repeatText n "scam ".toList)).2.flaggedContent
      "scam".toList = n := by
  have hr : Reachable (flagContent sampleSystem (repeatText n "scam ".toList)).2 :=
    Reachable.step sampleSystem _ (Op.flagContent (repeatText n "scam ".toList))
      reachable_sampleSystem (by simp only [applyOp])
  have hm := searchFlaggedWords_repeated n
  have hne : (searchFlaggedWords sampleSystem.root sampleSystem.flaggedTermsFrequency
      (repeatText n "scam ".toList)).1 ≠ [] := by
    rw [hm]
    intro h
    have := congrArg List.length h
    simp only [List.length_replicate, List.length_nil] at this
    omega
  have hocc : logOccurrences
      (flagContent sampleSystem (repeatText n "scam ".toList)).2.flaggedContent
      "scam".toList = n := by
    rw [flagContent_flagged sampleSystem _ hne]
    simp only
    rw [logOccurrences_append, hm, List.count_replicate_self]
    have h0 : logOccurrences sampleSystem.flaggedContent "scam".toList = 0 := by decide
    rw [h0, Nat.zero_add]
  refine ⟨hr, ?_, hocc⟩
  rw [(reachable_freq_inv _ hr).1 "scam".toList, hocc]

/-- C22 as stated fails once a word has been matched 2147483648 times: after loading the
sample banned words and analysing the text made of 2147483648 copies of "scam ", the
state is reached, the log holds 2147483648 occurrences of "scam", and the 32-bit counter
of "scam" is -2147483648. -/
theorem C22_overflow_counterexample :
    Reachable (flagContent sampleSystem (repeatText 2147483648 "scam ".toList)).2 ∧
    logOccurrences
      (flagContent sampleSystem (repeatText 2147483648 "scam ".toList)).2.flaggedContent
      "scam".toList = 2147483648 ∧
    counter
      (flagContent sampleSystem (repeatText 2147483648 "scam ".toList)).2.flaggedTermsFrequency
      "scam".toList = -2147483648 ∧
    ¬ (∀ w, counter
      (flagContent sampleSystem (repeatText 2147483648 "scam ".toList)).2.flaggedTermsFrequency
      w = (logOccurrences
        (flagContent sampleSystem (repeatText 2147483648 "scam ".toList)).2.flaggedContent
        w : Int)) := by
  obtain ⟨h1, h2, h3⟩ := flagContent_repeated 2147483648 (by decide)
  have hw : wrapInt32 ((2147483648 : Nat) : Int) = -2147483648 := by decide
  rw [hw] at h2
  refine ⟨h1, h3, h2, ?_⟩
  intro hall
  have := hall "scam".toList
  rw [h2, h3] at this
  exact absurd this (by decide)

/-- C22, amended: in every state reached from a freshly constructed
`ContentModerationSystem` by public operations, the counter of every word `w` equals the
total number of occurrences of `w` over the matched-word lists of the log entries reduced
to the 32-bit `int` range, hence equals that number whenever it is at most 2147483647;
every key of the table occurs at least once in the log, so within that bound no key has
counter 0; and every key of the table is a word contained in the Trie. -/
theorem C22_frequency_agrees_with_log (s : ContentModerationSystem) (h : Reachable s) :
    (∀ w, counter s.flaggedTermsFrequency w =
      wrapInt32 (logOccurrences s.flaggedContent w : Int)) ∧
    (∀ w, logOccurrences s.flaggedContent w ≤ 2147483647 →
      counter s.flaggedTermsFrequency w = (logOccurrences s.flaggedContent w : Int)) ∧
    (∀ e ∈ s.flaggedTermsFrequency,
      0 < logOccurrences s.flaggedContent e.1 ∧
        e.2 = wrapInt32 (logOccurrences s.flaggedContent e.1 : Int)) ∧
    (∀ e ∈ s.flaggedTermsFrequency, logOccurrences s.flaggedContent e.1 ≤ 2147483647 →
      e.2 = (logOccurrences s.flaggedContent e.1 : Int) ∧ e.2 ≠ 0) ∧
    (∀ e ∈ s.flaggedTermsFrequency, searchWord s.root e.1 = true) := by
  obtain ⟨h1, h2, h3⟩ := reachable_freq_inv s h
  have hentry : ∀ e ∈ s.flaggedTermsFrequency,
      e.2 = wrapInt32 (logOccurrences s.flaggedContent e.1 : Int) := by
    intro e he
    have hf := mapFind_of_mem_nodup s.flaggedTermsFrequency e.1 e.2 h2 he
    have hc := h1 e.1
    unfold counter at hc
    rw [hf] at hc
    exact hc
  refine ⟨h1, ?_, fun e he => ⟨(h3 e he).1, hentry e he⟩, ?_, fun e he => (h3 e he).2⟩
  · intro w hw
    rw [h1 w]
    exact wrapInt32_of_range _ (by omega) (by omega)
  · intro e he hb
    have hpos := (h3 e he).1
    have hval : e.2 = (logOccurrences s.flaggedContent e.1 : Int) := by
      rw [hentry e he]
      exact wrapInt32_of_range _ (by omega) (by omega)
    exact ⟨hval, by omega⟩

/-- Witness of C22: the state after loading the sample banned words and analysing
"This is a SCAM!! scam" is reached; there the counter of "scam" is 2, the number of its
occurrences in the log. -/
theorem C22_frequency_agrees_with_log_witness :
    Reachable (flagContent sampleSystem "This is a SCAM!! scam".toList).2 ∧
    logOccurrences (flagContent sampleSystem "This is a SCAM!! scam".toList).2.flaggedContent
      "scam".toList = 2 ∧
    counter (flagContent sampleSystem "This is a SCAM!! scam".toList).2.flaggedTermsFrequency
      "scam".toList =
      (logOccurrences (flagContent sampleSystem "This is a SCAM!! scam".toList).2.flaggedContent
        "scam".toList : Int) :=
  have hr : Reachable (flagContent sampleSystem "This is a SCAM!! scam".toList).2 :=
    Reachable.step sampleSystem _ (Op.flagContent "This is a SCAM!! scam".toList)
      (Reachable.step ContentModerationSystem.new sampleSystem
        (Op.loadBannedWords (some sampleBannedWordsFile)) Reachable.fresh rfl) rfl
  ⟨hr, by decide, (C22_frequency_agrees_with_log _ hr).2.1 "scam".toList (by decide)⟩

end ContentModerator
